import Mathlib

/-!
Verification of the Data Sweeper table processor (`src/app.py`).

The program is a straight-line pandas pipeline over an in-memory dataframe.
We embed the dataframe fragment the handlers touch: a `Table` is an ordered
list of named, typed columns (`headers`) together with row-major cells
(`rows`).  Column dtype is `numeric` (pandas "number" dtypes) or `text`
(pandas "object" dtype); a cell is a possibly-missing rational (NaN is
`none`) or a possibly-missing string (character list).  Rationals stand in
for float64: every finite binary float is a rational with terminating
decimal expansion, and float-rounding questions are outside the claims
(the round-trip claim excuses float formatting explicitly).

Text is modelled as `List Char` throughout to keep string reasoning
elementary.
-/

namespace Sweeper

/-- Column dtype as used by `df.select_dtypes(include=["number"])` /
`(include=["object"])` in the handlers. -/
inductive DType where
  | numeric
  | text
deriving DecidableEq, Repr

/-- One dataframe cell: a numeric value (float64, `none` = NaN) or an
object/text value (`none` = NaN sitting in an object column). -/
inductive Cell where
  | num : Option ℚ → Cell
  | str : Option (List Char) → Cell
deriving DecidableEq, Repr

/-- A column header: label and inferred dtype.  Labels produced by
`pd.read_csv` / `pd.read_excel` in this app are plain non-empty strings. -/
structure Hdr where
  name : List Char
  dtype : DType
deriving DecidableEq, Repr

/-- The working dataframe `df`: ordered named columns, ordered rows. -/
structure Table where
  headers : List Hdr
  rows : List (List Cell)
deriving DecidableEq, Repr

/-- Well-formedness: every row has exactly one cell per column (always true
of a real dataframe; our row-major embedding states it explicitly). -/
def wfb (t : Table) : Bool :=
  t.rows.all (fun r => r.length == t.headers.length)

/-- Cell at row `i`, column `j`. -/
def cellAt (t : Table) (i j : ℕ) : Option Cell :=
  t.rows[i]?.bind (fun r => r[j]?)

/-! ## Remove duplicates (`df.drop_duplicates(inplace=True)`)

pandas `drop_duplicates` with the default `keep="first"` drops every row
equal to an earlier row, keeping the first occurrence; its hash-table scan
is exactly "skip a row already seen". -/

/-- Keep the elements not yet seen, in order, remembering what was seen. -/
def firstOccsBy {α : Type} [DecidableEq α] (seen : List α) : List α → List α
  | [] => []
  | x :: xs => if x ∈ seen then firstOccsBy seen xs else x :: firstOccsBy (x :: seen) xs

/-- Model of `df.drop_duplicates(inplace=True)`: drop rows equal to an earlier row. -/
def dropDuplicates (t : Table) : Table :=
  { t with rows := firstOccsBy [] t.rows }

/-! ## Lowercase text columns
(`df[text_cols] = df[text_cols].apply(lambda x: x.str.lower())`) -/

/-- Apply `f` to every cell of every column of dtype `d`
(the `df[cols] = df[cols].<op>` assignment pattern). -/
def applyOnDtype (d : DType) (f : Cell → Cell) (t : Table) : Table :=
  { t with
    rows := t.rows.map (fun r =>
      List.zipWith (fun (h : Hdr) c => if h.dtype = d then f c else c) t.headers r) }

/-- Model of `Series.str.lower` on one object-column entry: lowercases a string,
keeps NaN, and maps a non-string entry to NaN (the `.str` accessor yields
NaN for non-string elements).  ASCII case-folding, as in the claims. -/
def lowerCell : Cell → Cell
  | .str (some s) => .str (some (s.map Char.toLower))
  | .str none => .str none
  | .num _ => .str none

/-- The "Convert Text Columns to Lowercase" button handler. -/
def lowercaseStep (t : Table) : Table :=
  applyOnDtype .text lowerCell t

/-! ## Remove special characters
(`df[text_cols] = df[text_cols].replace(r'[^A-Za-z0-9 ]+', '', regex=True)`) -/

/-- Characters the regex `[^A-Za-z0-9 ]+` keeps. -/
def allowedChar (c : Char) : Bool :=
  ('A' ≤ c && c ≤ 'Z') || ('a' ≤ c && c ≤ 'z') || ('0' ≤ c && c ≤ '9') || c = ' '

/-- Model of `replace(r'[^A-Za-z0-9 ]+', '', regex=True)` on one entry: substituting
every maximal run of disallowed characters by the empty string is exactly
filtering the string to the allowed characters.  `DataFrame.replace` leaves
NaN and non-string entries unchanged. -/
def stripCell : Cell → Cell
  | .str (some s) => .str (some (s.filter allowedChar))
  | c => c

/-- The "Remove Special Characters" button handler. -/
def stripSpecialStep (t : Table) : Table :=
  applyOnDtype .text stripCell t

/-! ## Fill missing values
(`df[numeric_cols] = df[numeric_cols].fillna(df[numeric_cols].mean())`,
guarded by `numeric_cols.any()`) -/

/-- Present (non-NaN) numeric values of a list of cells. -/
def presentVals (cs : List Cell) : List ℚ :=
  cs.filterMap (fun c => match c with | .num (some q) => some q | _ => none)

/-- Cells of column `j`, top to bottom. -/
def colCells (t : Table) (j : ℕ) : List Cell :=
  t.rows.filterMap (fun r => r[j]?)

/-- Model of `Series.mean()`: arithmetic mean over present values, NaN when there
are none. -/
def meanQ (vs : List ℚ) : Option ℚ :=
  if vs.isEmpty then none else some (vs.sum / vs.length)

/-- Model of `df[c].mean()` for column `j` of `t`. -/
def colMean (t : Table) (j : ℕ) : Option ℚ :=
  meanQ (presentVals (colCells t j))

/-- Model of `fillna(m)` on one numeric entry: a NaN becomes `m` (which is itself
NaN when the column mean is NaN, leaving the entry missing). -/
def fillCell (m : Option ℚ) : Cell → Cell
  | .num none => .num m
  | c => c

/-- Per-column fill functions: the mean-fill on numeric columns, identity
elsewhere (`fillna` applied column-wise with the per-column mean Series). -/
def fillFuns (t : Table) : List (Cell → Cell) :=
  (List.range t.headers.length).map (fun j =>
    match t.headers[j]? with
    | some h => if h.dtype = .numeric then fillCell (colMean t j) else id
    | none => id)

/-- The "Fill Missing Values" button handler.  Returns the new table and
whether the no-numeric-columns warning was shown.  The guard is
`numeric_cols.any()`: `Index.any` tests truthiness of the labels, which
for the string labels this app produces means some label is non-empty. -/
def fillMissingStep (t : Table) : Table × Bool :=
  let numericNames := (t.headers.filter (fun h => h.dtype = .numeric)).map Hdr.name
  if numericNames.any (fun n => !n.isEmpty) then
    ({ t with rows := t.rows.map (fun r => List.zipWith (fun f c => f c) (fillFuns t) r) },
     false)
  else
    (t, true)

/-! ## Filtering
(`unique_vals = df[col].unique()`; `df = df[df[col].isin(selected_vals)]`) -/

/-- Model of `df[col].unique()`: distinct values of column `j` keeping first
occurrences (pandas' hash-based unique; NaN participates like a value,
just as in its `isin`/`unique` hash table). -/
def uniqueVals (t : Table) (j : ℕ) : List Cell :=
  firstOccsBy [] (colCells t j)

/-- Model of `df = df[df[col].isin(selected)]` for column `j`. -/
def filterStep (t : Table) (j : ℕ) (selected : List Cell) : Table :=
  { t with
    rows := t.rows.filter (fun r =>
      match r[j]? with
      | some c => decide (c ∈ selected)
      | none => false) }

/-! ## Index pairing (used to state "duplicate of an earlier row") -/

/-- Pair each element with its position, starting at `n`. -/
def withIdx {α : Type} (n : ℕ) : List α → List (ℕ × α)
  | [] => []
  | a :: l => (n, a) :: withIdx (n + 1) l

/-- The spec's description of duplicate removal: keep exactly the rows that
do not already occur among the earlier rows. -/
def firstOccurrenceRows {α : Type} [DecidableEq α] (l : List α) : List α :=
  ((withIdx 0 l).filter (fun p => decide (p.2 ∉ l.take p.1))).map Prod.snd

/-! ## Decimal rendering of numbers (`df.to_csv` on a numeric column)

pandas writes a float with `repr`-style shortest digits: a decimal string
that parses back to the same value.  Every finite binary float is a
rational whose denominator divides a power of ten, so on such rationals we
write the exact terminating decimal expansion; parsing it back recovers
the value exactly, which is the model-level content of "round-trips modulo
float formatting".  (Fuel-structural recursion so terms reduce in the
kernel.) -/

/-- Big-endian decimal digits of `n`; `fuel` bounds the recursion depth
(`fuel > n` always suffices). -/
def natCharsAux : ℕ → ℕ → List Char
  | 0, _ => []
  | fuel + 1, n =>
    if n < 10 then [Nat.digitChar n]
    else natCharsAux fuel (n / 10) ++ [Nat.digitChar (n % 10)]

/-- Big-endian decimal digit string of `n`. -/
def natChars (n : ℕ) : List Char := natCharsAux (n + 1) n

/-- Smallest `e` with `den ∣ 10 ^ e`, if one exists below `den + 1`
(for `den = 2^a * 5^b` the smallest such `e` is `max a b ≤ den`). -/
def decExp (den : ℕ) : Option ℕ :=
  (List.range (den + 1)).find? (fun e => decide (den ∣ 10 ^ e))

/-- Numeric value of a big-endian digit string. -/
def digitsVal (ds : List Char) : ℕ :=
  ds.foldl (fun a c => 10 * a + (c.toNat - 48)) 0

/-- Decimal rendering of a rational with terminating decimal expansion
(the only kind float data produces).  For a non-terminating rational —
unreachable from binary floats — we fall back to `"0"`. -/
def qToChars (q : ℚ) : List Char :=
  match decExp q.den with
  | some e =>
    let m := q.num.natAbs * 10 ^ e / q.den
    let frac := natChars (m % 10 ^ e)
    (if q.num < 0 then ['-'] else []) ++ natChars (m / 10 ^ e) ++
      (if e = 0 then [] else '.' :: (List.replicate (e - frac.length) '0' ++ frac))
  | none => ['0']

/-! ## Numeric parsing (`pd.read_csv` type inference)

The C parser converts a field to float64 when, after skipping surrounding
whitespace (`isspace`), it has the shape
`[+-]? digits [. digits]? ([eE] [+-]? digits)?` (with at least one digit
in the mantissa); otherwise the column falls back to object dtype.  We
model that shape exactly, with exact rational values.  The converter also
accepts the words inf/infinity/nan case-insensitively (with an optional
sign); those produce floats that do not fit exact rationals, so the
round-trip envelope excludes them via `specialFloatText` below. -/

/-- Python `str.lower` on the ASCII names we deal with. -/
def toLowerChars (s : List Char) : List Char := s.map Char.toLower

/-- Whitespace the C parser's numeric converter skips around a field
(C `isspace`: space, tab, LF, CR, vertical tab, form feed). -/
def wsChar (c : Char) : Bool :=
  c = ' ' || c = '\t' || c = '\n' || c = '\r' || c = Char.ofNat 11 || c = Char.ofNat 12

/-- Strip surrounding whitespace, as the numeric converter does. -/
def trimWs (s : List Char) : List Char :=
  ((s.dropWhile wsChar).reverse.dropWhile wsChar).reverse

/-- Consume an optional sign; returns (negative?, rest). -/
def splitSign : List Char → Bool × List Char
  | [] => (false, [])
  | c :: r =>
    if c = '-' then (true, r) else if c = '+' then (false, r) else (false, c :: r)

/-- Leading run of decimal digits and the rest. -/
def takeDigits (s : List Char) : List Char × List Char :=
  (s.takeWhile Char.isDigit, s.dropWhile Char.isDigit)

/-- Apply a parsed sign. -/
def applySign (neg : Bool) (q : ℚ) : ℚ := if neg then -q else q

/-- Parse the exponent tail after `e`/`E`, scaling the mantissa. -/
def parseExpPart (mant : ℚ) (s : List Char) : Option ℚ :=
  let p := splitSign s
  let d := takeDigits p.2
  if d.1.isEmpty || !d.2.isEmpty then none
  else some (mant * (10 : ℚ) ^ (if p.1 then -(digitsVal d.1 : ℤ) else (digitsVal d.1 : ℤ)))

/-- Parse a whitespace-free numeric field, or `none` when it is not
numeric. -/
def parseNumCore (s : List Char) : Option ℚ :=
  let p := splitSign s
  let ip := takeDigits p.2
  match ip.2 with
  | [] => if ip.1.isEmpty then none else some (applySign p.1 (digitsVal ip.1))
  | x :: r3 =>
    if x = '.' then
      let fp := takeDigits r3
      if ip.1.isEmpty && fp.1.isEmpty then none
      else
        let mant : ℚ := (digitsVal ip.1 : ℚ) + (digitsVal fp.1 : ℚ) / (10 : ℚ) ^ fp.1.length
        match fp.2 with
        | [] => some (applySign p.1 mant)
        | y :: r5 =>
          if y = 'e' || y = 'E' then (parseExpPart mant r5).map (applySign p.1) else none
    else if x = 'e' || x = 'E' then
      if ip.1.isEmpty then none
      else (parseExpPart (digitsVal ip.1) r3).map (applySign p.1)
    else none

/-- Model of the C parser's numeric conversion of one field: skip
surrounding whitespace, then parse the decimal shape. -/
def parseNumChars (s : List Char) : Option ℚ :=
  parseNumCore (trimWs s)

/-- Fields the C parser's converter turns into special floats: the words
inf/infinity/nan with an optional sign, case-insensitively, modulo
surrounding whitespace.  They produce float values (±inf, NaN) rather
than text, so they sit outside the round-trip envelope. -/
def specialFloatText (s : List Char) : Bool :=
  let p := splitSign (trimWs s)
  toLowerChars p.2 = "inf".toList || toLowerChars p.2 = "infinity".toList ||
    toLowerChars p.2 = "nan".toList

/-- The character set decimal renderings draw from. -/
def numChar (c : Char) : Bool := c.isDigit || c = '-' || c = '.'

/-! ## CSV serialization (`df.to_csv(buffer, index=False)`) -/

/-- pandas default `na_values` sentinel strings of the C parser. -/
def naTokens : List (List Char) :=
  ["", "#N/A", "#N/A N/A", "#NA", "-1.#IND", "-1.#QNAN", "-NaN", "-nan",
   "1.#IND", "1.#QNAN", "<NA>", "N/A", "NA", "NULL", "NaN", "None",
   "n/a", "nan", "null"].map String.toList

/-- A field needing quoting under `QUOTE_MINIMAL`. -/
def needsQuote (s : List Char) : Bool :=
  s.any (fun c => c = ',' || c = '"' || c = '\n' || c = '\r')

/-- Double every quote character (CSV escaping). -/
def escapeQ : List Char → List Char
  | [] => []
  | '"' :: r => '"' :: '"' :: escapeQ r
  | c :: r => c :: escapeQ r

/-- Render one field, quoting when needed. -/
def renderField (s : List Char) : List Char :=
  if needsQuote s then '"' :: (escapeQ s ++ ['"']) else s

/-- Serialize one cell: NaN is the empty field (`na_rep=''`), numbers are
decimal strings, strings are quoted as needed. -/
def cellField : Cell → List Char
  | .num none => []
  | .num (some q) => qToChars q
  | .str none => []
  | .str (some s) => renderField s

/-- Join fields with commas. -/
def joinFields : List (List Char) → List Char
  | [] => []
  | [f] => f
  | f :: fs => f ++ ',' :: joinFields fs

/-- One serialized data row. -/
def lineOfRow (r : List Cell) : List Char :=
  joinFields (r.map cellField)

/-- Model of `df.to_csv(buffer, index=False)`: header line then one line per row,
each terminated by a newline. -/
def writeCsv (t : Table) : List Char :=
  ((joinFields (t.headers.map (fun h => renderField h.name))
      :: t.rows.map lineOfRow).map (fun l => l ++ ['\n'])).flatten

/-! ## CSV parsing (`pd.read_csv`)

We model the quote-free fragment of the C parser: records split on
newlines with blank lines skipped (`skip_blank_lines=True`), fields split
on commas, a simply-quoted field unquoted, NA sentinels to NaN, and a
column made numeric exactly when every non-NA field parses as a number
(an all-NA column is float64, hence numeric).  Unmodelled pandas details
(quoted embedded newlines/commas, bool and inf inference, duplicate-name
mangling, `Unnamed:` headers) are fenced off by the hypotheses of the
round-trip theorem. -/

/-- Split a character list on a separator (keeping empty pieces). -/
def splitOn (sep : Char) : List Char → List (List Char)
  | [] => [[]]
  | x :: xs =>
    match splitOn sep xs with
    | [] => [[]]
    | y :: ys => if x = sep then [] :: y :: ys else (x :: y) :: ys

/-- Collapse doubled quotes inside a quoted field. -/
def collapseQQ : List Char → List Char
  | [] => []
  | '"' :: '"' :: r => '"' :: collapseQQ r
  | c :: r => c :: collapseQQ r

/-- Unquote a field that is wholly surrounded by quotes. -/
def unquoteField (f : List Char) : List Char :=
  match f with
  | [] => []
  | c :: rest =>
    if c = '"' then
      if rest ≠ [] && rest.getLast? == some '"' then collapseQQ rest.dropLast else c :: rest
    else c :: rest

/-- Non-blank records of a CSV text. -/
def splitRecords (raw : List Char) : List (List Char) :=
  (splitOn '\n' raw).filter (fun l => !l.isEmpty)

/-- Fields of one record. -/
def splitFields (line : List Char) : List (List Char) :=
  (splitOn ',' line).map unquoteField

/-- Column dtype inference: numeric iff every non-NA field parses. -/
def inferDType (fields : List (List Char)) : DType :=
  if fields.all (fun f => decide (f ∈ naTokens) || (parseNumChars f).isSome) then .numeric
  else .text

/-- Build one cell from a field under an inferred column dtype. -/
def mkCell (d : DType) (f : List Char) : Cell :=
  if f ∈ naTokens then
    match d with
    | .numeric => .num none
    | .text => .str none
  else
    match d with
    | .numeric => .num (parseNumChars f)
    | .text => .str (some f)

/-- The table built from a header record and data records: infer each
column's dtype from its fields, then build typed cells (short records are
padded with empty — hence NA — fields; a record wider than the header is a
parse fault). -/
def readCsvTable (headerLine : List Char) (dataLines : List (List Char)) : Option Table :=
  let names := splitFields headerLine
  let ncols := names.length
  let fieldRows := dataLines.map splitFields
  if fieldRows.all (fun r => r.length ≤ ncols) then
    let padded := fieldRows.map (fun r => r ++ List.replicate (ncols - r.length) [])
    let dtypes := (List.range ncols).map (fun j => inferDType (padded.map (fun r => r.getD j [])))
    some ⟨List.zipWith (fun n d => ⟨n, d⟩) names dtypes,
          padded.map (fun r => List.zipWith mkCell dtypes r)⟩
  else none

/-- Model of `pd.read_csv` on raw text.  `none` models an unhandled parser fault
(empty input, or a record wider than the header). -/
def readCsv (raw : List Char) : Option Table :=
  match splitRecords raw with
  | [] => none
  | headerLine :: dataLines => readCsvTable headerLine dataLines

/-! ## Value comparison for the round-trip claim

The spec compares reloaded tables "in values and column order": same
column names in order, same rows in order, each cell carrying the same
value, a missing entry matching a missing entry regardless of the dtype
the reload inferred for the column. -/

/-- Is the cell missing (NaN)? -/
def cellMissing : Cell → Bool
  | .num none => true
  | .str none => true
  | _ => false

/-- Same value: both missing, or equal. -/
def cellValEq (a b : Cell) : Bool :=
  (cellMissing a && cellMissing b) || a == b

/-- Rows of equal length matching value-wise. -/
def rowValEq (r s : List Cell) : Bool :=
  r.length == s.length && (List.zipWith cellValEq r s).all id

/-- Tables equal in column names (in order) and row values (in order). -/
def tableValuesEq (t u : Table) : Bool :=
  t.headers.map Hdr.name == u.headers.map Hdr.name &&
  t.rows.length == u.rows.length &&
  (List.zipWith rowValEq t.rows u.rows).all id

/-! ## Safety envelope for the amended round-trip claim -/

/-- Exact-string sentinels that `pd.read_csv` would turn into NaN or
booleans rather than text: the NA list and the C parser's (exact-case)
bool tokens.  The case-insensitive inf/nan words are handled separately
by `specialFloatText`. -/
def naLike : List (List Char) :=
  naTokens ++
    (["True", "False", "TRUE", "FALSE", "true", "false"].map String.toList)

/-- A character that triggers neither quoting nor record/field splitting. -/
def plainChar (c : Char) : Bool :=
  !(c = ',' || c = '"' || c = '\n' || c = '\r')

/-- A text value that survives the round trip as itself: non-empty, not
numeric (even after whitespace stripping), not an NA/bool sentinel, not a
case-insensitive inf/nan word, and free of separator/quote/newline
characters. -/
def safeText (s : List Char) : Bool :=
  !s.isEmpty && (parseNumChars s).isNone && !(decide (s ∈ naLike)) &&
    !specialFloatText s && s.all plainChar

/-- A cell whose value the round trip preserves exactly: numeric values
with terminating decimal expansion, missing cells, and safe text. -/
def csvSafeCell : Cell → Bool
  | .num none => true
  | .num (some q) => (decExp q.den).isSome
  | .str none => true
  | .str (some s) => safeText s

/-- The cell sits in a column of its own kind (always true of a real
dataframe, where a numeric column physically stores floats). -/
def typedCell (d : DType) : Cell → Bool
  | .num _ => d == .numeric
  | .str _ => d == .text

/-- A header the reader hands back verbatim. -/
def hdrSafe (h : Hdr) : Bool :=
  !h.name.isEmpty && h.name.all plainChar

/-- The amended round-trip envelope: a well-formed table with at least one
column, safe distinct headers, dtype-consistent safe cells, and — when
there is a single column — no missing cells (a lone missing cell would
serialize as a blank line, which reload skips). -/
def csvRoundSafe (t : Table) : Prop :=
  wfb t = true ∧
  t.headers ≠ [] ∧
  t.headers.all hdrSafe = true ∧
  (t.headers.map Hdr.name).Nodup ∧
  (t.rows.all (fun r =>
    (List.zipWith (fun (h : Hdr) c => typedCell h.dtype c && csvSafeCell c) t.headers r).all id))
    = true ∧
  (t.headers.length = 1 → t.rows.all (fun r => r.all (fun c => !cellMissing c)) = true)

instance : DecidablePred csvRoundSafe := fun _ => by
  unfold csvRoundSafe; infer_instance

/-! ## Upload loop and format dispatch (lines 19–28 of `app.py`) -/

/-- Model of `os.path.splitext`: split at the last dot, unless every character
before that dot is itself a dot (leading dots are not an extension). -/
def splitAtLastDot : List Char → Option (List Char × List Char)
  | [] => none
  | c :: cs =>
    match splitAtLastDot cs with
    | some p => some (c :: p.1, p.2)
    | none => if c = '.' then some ([], '.' :: cs) else none

/-- The `os.path.splitext(name)[-1]` extension of a file name. -/
def fileExtOf (name : List Char) : List Char :=
  match splitAtLastDot name with
  | none => []
  | some p => if p.1.all (fun c => c = '.') then [] else p.2

/-- An uploaded file: its name and raw bytes. -/
structure UploadedFile where
  name : List Char
  raw : List Char

/-- Outcome of the per-file dispatch: a parsed table, the surfaced
"Unsupported file format" error (no table is created), or an unhandled
parser fault. -/
inductive LoadResult where
  | table : Table → LoadResult
  | unsupported : List Char → LoadResult
  | parseFailure : LoadResult
deriving DecidableEq

/-- The dispatch on `file_ext` (lowercased `splitext` extension): `.csv`
via `pd.read_csv`, `.xlsx` via `pd.read_excel` — spreadsheet decoding is
external library code, abstracted as the `xl` parameter — otherwise
`st.error(f"Unsupported file format: {file_ext}")` and `continue`. -/
def loadFile (xl : List Char → Option Table) (f : UploadedFile) : LoadResult :=
  let ext := toLowerChars (fileExtOf f.name)
  if ext = ".csv".toList then
    match readCsv f.raw with
    | some t => .table t
    | none => .parseFailure
  else if ext = ".xlsx".toList then
    match xl f.raw with
    | some t => .table t
    | none => .parseFailure
  else
    .unsupported ("Unsupported file format: ".toList ++ ext)

/-- The `for file in uploaded_files` loop: each file is handled in turn,
independently. -/
def processFiles (xl : List Char → Option Table) : List UploadedFile → List LoadResult
  | [] => []
  | f :: fs => loadFile xl f :: processFiles xl fs

/-! ## Convert & Download (lines 108–127 of `app.py`) -/

/-- The conversion radio button. -/
inductive Format where
  | csv
  | excel
deriving DecidableEq

/-- Does `pat` begin `s`? -/
def leadsWith : List Char → List Char → Bool
  | [], _ => true
  | _ :: _, [] => false
  | p :: ps, c :: cs => p == c && leadsWith ps cs

/-- Python `str.replace`: replace every non-overlapping occurrence of
`pat`, scanning left to right.  Fuel-structural (`fuel > s.length`
suffices: every step consumes at least one character).  At its only call
site `pat` is the nonempty lowercased extension, so the empty-pattern
behaviour of Python (`"ab".replace("", "x")`) never arises and is not
modelled. -/
def replaceAllAux : ℕ → List Char → List Char → List Char → List Char
  | 0, s, _, _ => s
  | fuel + 1, s, pat, rep =>
    match s with
    | [] => []
    | c :: cs =>
      if pat.isEmpty then c :: replaceAllAux fuel cs pat rep
      else if leadsWith pat (c :: cs) then
        rep ++ replaceAllAux fuel ((c :: cs).drop pat.length) pat rep
      else c :: replaceAllAux fuel cs pat rep

/-- Python `str.replace` (see `replaceAllAux`). -/
def replaceAll (s pat rep : List Char) : List Char :=
  replaceAllAux (s.length + 1) s pat rep

/-- The extension the Convert handler substitutes in. -/
def targetExtOf : Format → List Char
  | .csv => ".csv".toList
  | .excel => ".xlsx".toList

/-- The MIME type attached to the download. -/
def mimeOf : Format → String
  | .csv => "text/csv"
  | .excel => "application/vnd.openxmlformats-officedocument.spreadsheetml.sheet"

/-- Model of `file_name = file.name.replace(file_ext, ".csv" / ".xlsx")`. -/
def downloadName (name : List Char) (fmt : Format) : List Char :=
  replaceAll name (toLowerChars (fileExtOf name)) (targetExtOf fmt)

/-- Modelled from the spec: the spreadsheet writer (`df.to_excel`, via the
external openpyxl engine, absent from this repository) is a deterministic
pure serialization of the table; we reuse the tabular writer as its
stand-in, since the claims about export depend only on purity and
determinism, not on the byte format. -/
def xlsxBytes (t : Table) : List Char := writeCsv t

/-- The payload handed to `st.download_button`. -/
structure Download where
  data : List Char
  fileName : List Char
  mime : String
deriving DecidableEq

/-- The Convert button handler: serialize the *current* table into a fresh
in-memory buffer, compute the download name and MIME type, and return the
payload; `df` itself is not written to.  The returned table is the state
the handler leaves behind. -/
def convertStep (t : Table) (origName : List Char) (fmt : Format) : Download × Table :=
  let bytes := match fmt with
    | .csv => writeCsv t
    | .excel => xlsxBytes t
  (⟨bytes, downloadName origName fmt, mimeOf fmt⟩, t)

/-- Predicate `noEarlyOccur base whole ext`: the extension does not occur in `whole`
at any position inside `base` (so its only occurrence is the final one). -/
def noEarlyOccur (base whole ext : List Char) : Bool :=
  (List.range base.length).all (fun i => !leadsWith ext (whole.drop i))

/-- Concrete table for the C7 witness: a text column and a numeric column
with a fractional value and a missing value, inside the safety envelope. -/
def wT7 : Table :=
  ⟨[⟨"name".toList, .text⟩, ⟨"score".toList, .numeric⟩],
   [[.str (some "Alice".toList), .num (some (5 / 2))],
    [.str (some "Bob".toList), .num none]]⟩

/-! ## Concrete tables and inputs used by witnesses and counterexamples -/

/-- Concrete table for the C3 witness. -/
def wT3 : Table := ⟨[⟨"x".toList, .text⟩], [[.str (some "a!b".toList)]]⟩

/-- Concrete table for the C4 witness. -/
def wT4 : Table :=
  ⟨[⟨"a".toList, .numeric⟩, ⟨"b".toList, .text⟩],
   [[.num (some 1), .str (some "u".toList)],
    [.num none, .str (some "v".toList)],
    [.num (some 1), .str (some "u".toList)]]⟩

/-- Trivial spreadsheet decoder for the C1 witness. -/
def wXl : List Char → Option Table := fun _ => none

/-- A `.txt` upload for the C1 witness. -/
def wFileTxt : UploadedFile := ⟨"notes.txt".toList, "hello".toList⟩

/-- A well-formed `.csv` upload for the C1 witness. -/
def wFileCsv : UploadedFile := ⟨"a.csv".toList, "x\n1\n".toList⟩

/-- Concrete table for the C5 witness: one numeric column `a` with a
missing entry and present values 2 and 4 (mean 3). -/
def wT5 : Table :=
  ⟨[⟨"a".toList, .numeric⟩], [[.num none], [.num (some 2)], [.num (some 4)]]⟩

/-- Concrete table for the C10 witness: a text column and a numeric
column, with content in both. -/
def wT10 : Table :=
  ⟨[⟨"s".toList, .text⟩, ⟨"n".toList, .numeric⟩],
   [[.str (some "Hi,There".toList), .num none],
    [.str (some "x".toList), .num (some 5)]]⟩

/-- Table for the C7 counterexample: a present empty-string text cell. -/
def wTCE : Table :=
  ⟨[⟨"x".toList, .text⟩, ⟨"y".toList, .text⟩],
   [[.str (some "a".toList), .str (some [])]]⟩

/-- What reloading the export of `wTCE` actually produces: the empty
string comes back as a missing value (and its column as numeric). -/
def wTCE' : Table :=
  ⟨[⟨"x".toList, .text⟩, ⟨"y".toList, .numeric⟩],
   [[.str (some "a".toList), .num none]]⟩

/-! # Lemmas and claim theorems -/

/-! ## First-occurrence deduplication -/

theorem mem_of_mem_firstOccsBy {α : Type} [DecidableEq α] {seen l : List α} {x : α}
    (h : x ∈ firstOccsBy seen l) : x ∈ l := by
  induction l generalizing seen with
  | nil => simp [firstOccsBy] at h
  | cons a l ih =>
    by_cases ha : a ∈ seen
    · simp only [firstOccsBy, if_pos ha] at h
      exact List.mem_cons_of_mem _ (ih h)
    · simp only [firstOccsBy, if_neg ha, List.mem_cons] at h
      rcases h with h | h
      · simp [h]
      · exact List.mem_cons_of_mem _ (ih h)

theorem not_mem_seen_of_mem_firstOccsBy {α : Type} [DecidableEq α] {seen l : List α} {x : α}
    (h : x ∈ firstOccsBy seen l) : x ∉ seen := by
  induction l generalizing seen with
  | nil => simp [firstOccsBy] at h
  | cons a l ih =>
    by_cases ha : a ∈ seen
    · simp only [firstOccsBy, if_pos ha] at h
      exact ih h
    · simp only [firstOccsBy, if_neg ha, List.mem_cons] at h
      rcases h with h | h
      · simpa [h] using ha
      · intro hx
        exact ih h (List.mem_cons_of_mem _ hx)

theorem mem_firstOccsBy_of_mem {α : Type} [DecidableEq α] {seen l : List α} {x : α}
    (hl : x ∈ l) (hs : x ∉ seen) : x ∈ firstOccsBy seen l := by
  induction l generalizing seen with
  | nil => simp at hl
  | cons a l ih =>
    rcases List.mem_cons.mp hl with h | h
    · subst h
      simp only [firstOccsBy, if_neg hs]
      exact List.mem_cons_self _ _
    · by_cases ha : a ∈ seen
      · simp only [firstOccsBy, if_pos ha]
        exact ih h hs
      · simp only [firstOccsBy, if_neg ha]
        by_cases hxa : x = a
        · subst hxa; exact List.mem_cons_self _ _
        · exact List.mem_cons_of_mem _ (ih h (by simp [hxa, hs]))

theorem nodup_firstOccsBy {α : Type} [DecidableEq α] (seen l : List α) :
    (firstOccsBy seen l).Nodup := by
  induction l generalizing seen with
  | nil => simp [firstOccsBy]
  | cons a l ih =>
    by_cases ha : a ∈ seen
    · simpa only [firstOccsBy, if_pos ha] using ih seen
    · simp only [firstOccsBy, if_neg ha, List.nodup_cons]
      refine ⟨fun hmem => ?_, ih (a :: seen)⟩
      exact not_mem_seen_of_mem_firstOccsBy hmem (List.mem_cons_self _ _)

theorem firstOccsBy_eq_self {α : Type} [DecidableEq α] {seen l : List α}
    (hs : ∀ x ∈ l, x ∉ seen) (hn : l.Nodup) : firstOccsBy seen l = l := by
  induction l generalizing seen with
  | nil => rfl
  | cons a l ih =>
    have ha : a ∉ seen := hs a (List.mem_cons_self _ _)
    rcases List.nodup_cons.mp hn with ⟨hal, hnl⟩
    simp only [firstOccsBy, if_neg ha]
    refine congrArg (a :: ·) (ih ?_ hnl)
    intro x hx
    simp only [List.mem_cons, not_or]
    exact ⟨fun hxa => hal (hxa ▸ hx), hs x (List.mem_cons_of_mem _ hx)⟩

theorem firstOccsBy_idem {α : Type} [DecidableEq α] (l : List α) :
    firstOccsBy [] (firstOccsBy [] l) = firstOccsBy [] l :=
  firstOccsBy_eq_self (by simp) (nodup_firstOccsBy [] l)

/-- The recursive scan equals the positional description: keep an element
iff it is absent from `seen` and from the earlier part of the list. -/
theorem firstOccsBy_eq_filter {α : Type} [DecidableEq α] (seen l : List α) :
    firstOccsBy seen l
      = ((withIdx 0 l).filter
          (fun p => decide (p.2 ∉ seen) && decide (p.2 ∉ l.take p.1))).map Prod.snd := by
  induction l generalizing seen with
  | nil => rfl
  | cons a l ih =>
    have hshift : withIdx 1 l = (withIdx 0 l).map (fun p => (p.1 + 1, p.2)) := by
      have : ∀ (n : ℕ) (l' : List α),
          withIdx (n + 1) l' = (withIdx n l').map (fun p => (p.1 + 1, p.2)) := by
        intro n l'
        induction l' generalizing n with
        | nil => rfl
        | cons b l' ihb => simp [withIdx, ihb]
      exact this 0 l
    by_cases ha : a ∈ seen
    · simp only [firstOccsBy, if_pos ha, withIdx, hshift, List.filter_cons]
      have hhead : (decide (a ∉ seen) && decide (a ∉ List.take 0 (a :: l))) = false := by
        simp [ha]
      rw [hhead]
      rw [if_neg Bool.false_ne_true]
      rw [List.filter_map, List.map_map]
      have hcong : ∀ p : ℕ × α,
          ((fun q => decide (q.2 ∉ seen) && decide (q.2 ∉ (a :: l).take q.1)) ∘
              (fun p : ℕ × α => (p.1 + 1, p.2))) p
            = (fun q => decide (q.2 ∉ seen) && decide (q.2 ∉ l.take q.1)) p := by
        rintro ⟨i, x⟩
        by_cases hx : x ∈ seen
        · simp [hx]
        · have hxa : x ≠ a := fun hxa => hx (hxa ▸ ha)
          simp [hx, List.take_succ_cons, hxa]
      rw [List.filter_congr (fun p _ => hcong p), ih seen]
      rfl
    · simp only [firstOccsBy, if_neg ha, withIdx, hshift, List.filter_cons]
      have hhead : (decide (a ∉ seen) && decide (a ∉ List.take 0 (a :: l))) = true := by
        simp [ha]
      rw [hhead]
      rw [if_pos rfl]
      rw [List.map_cons, List.filter_map, List.map_map]
      have hcong : ∀ p : ℕ × α,
          ((fun q => decide (q.2 ∉ seen) && decide (q.2 ∉ (a :: l).take q.1)) ∘
              (fun p : ℕ × α => (p.1 + 1, p.2))) p
            = (fun q => decide (q.2 ∉ a :: seen) && decide (q.2 ∉ l.take q.1)) p := by
        rintro ⟨i, x⟩
        simp only [Function.comp_apply, List.take_succ_cons, List.mem_cons, not_or]
        by_cases hx : x ∈ seen <;> by_cases hxa : x = a <;> simp [hx, hxa]
      rw [List.filter_congr (fun p _ => hcong p), ih (a :: seen)]
      rfl

/-- C6: `RemoveDuplicates` is idempotent, and it drops exactly the rows
that are exact duplicates of an earlier row, keeping the first occurrence
of each (the kept rows are precisely those not occurring among the rows
before them, in their original order). -/
theorem c6_remove_duplicates_idempotent_first (t : Table) :
    dropDuplicates (dropDuplicates t) = dropDuplicates t ∧
    (dropDuplicates t).rows = firstOccurrenceRows t.rows := by
  constructor
  · simp only [dropDuplicates, firstOccsBy_idem]
  · simp only [dropDuplicates, firstOccurrenceRows]
    rw [firstOccsBy_eq_filter]
    refine congrArg (List.map Prod.snd) ?_
    exact List.filter_congr (fun p _ => by simp)

/-- C2: parsing the CSV text `name,age\nAlice,30\nBob,\nAlice,30\n`,
removing duplicates and then filling missing values yields exactly the
two-row table (Alice, 30), (Bob, 30): the second Alice row is dropped and
Bob's age becomes the mean (30) of the ages present after deduplication. -/
theorem c2_dedup_then_fill_scenario :
    (readCsv "name,age\nAlice,30\nBob,\nAlice,30\n".toList).map
        (fun t => (fillMissingStep (dropDuplicates t)).1)
      = some ⟨[⟨"name".toList, .text⟩, ⟨"age".toList, .numeric⟩],
              [[.str (some "Alice".toList), .num (some 30)],
               [.str (some "Bob".toList), .num (some 30)]]⟩ := by
  with_unfolding_all decide

/-! ## Index access through the column-wise transforms -/

theorem zipWithGetElem {α β γ : Type} (f : α → β → γ) (as : List α) (bs : List β) (i : ℕ) :
    (List.zipWith f as bs)[i]? = as[i]?.bind (fun a => bs[i]?.map (f a)) := by
  induction as generalizing bs i with
  | nil => simp
  | cons a as ih =>
    cases bs with
    | nil => simp
    | cons b bs =>
      cases i with
      | zero => simp
      | succ i => simpa using ih bs i

theorem cellAt_applyOnDtype (d : DType) (f : Cell → Cell) (t : Table) (i j : ℕ) :
    cellAt (applyOnDtype d f t) i j
      = t.rows[i]?.bind (fun r =>
          t.headers[j]?.bind (fun h =>
            r[j]?.map (fun c => if h.dtype = d then f c else c))) := by
  simp only [cellAt, applyOnDtype, List.getElem?_map]
  cases t.rows[i]? with
  | none => rfl
  | some r => simp [zipWithGetElem]

/-- C3: after StripSpecialChars, every present value of every text column
contains only characters from `[A-Za-z0-9 ]`. -/
theorem c3_strip_special_only_allowed (t : Table) (i j : ℕ) (h : Hdr) (s : List Char)
    (hj : t.headers[j]? = some h) (hd : h.dtype = .text)
    (hc : cellAt (stripSpecialStep t) i j = some (.str (some s))) :
    s.all allowedChar = true := by
  rw [stripSpecialStep, cellAt_applyOnDtype, hj] at hc
  cases hr : t.rows[i]? with
  | none => simp [hr] at hc
  | some r =>
    rw [hr] at hc
    cases hcj : r[j]? with
    | none => simp [hcj] at hc
    | some c =>
      simp only [Option.some_bind, hcj, Option.map_some', Option.some.injEq] at hc
      rw [if_pos hd] at hc
      cases c with
      | num v => exact Cell.noConfusion hc
      | str o =>
        cases o with
        | none =>
          injection hc with h'
          exact Option.noConfusion h'
        | some s0 =>
          simp only [stripCell, Cell.str.injEq, Option.some.injEq] at hc
          subst hc
          exact List.all_eq_true.mpr (fun c hcmem => (List.mem_filter.mp hcmem).2)

theorem c3_witness :
    wT3.headers[0]? = some ⟨"x".toList, .text⟩ ∧
    cellAt (stripSpecialStep wT3) 0 0 = some (.str (some "ab".toList)) ∧
    ("ab".toList).all allowedChar = true :=
  ⟨by decide, by decide,
    c3_strip_special_only_allowed wT3 0 0 ⟨"x".toList, .text⟩ ("ab".toList)
      (by decide) rfl (by decide)⟩

/-- C4: filtering a column on the full set of its current distinct values
is a no-op: the table is returned unchanged. -/
theorem c4_filter_full_unique_noop (t : Table) (j : ℕ)
    (hwf : wfb t = true) (hj : j < t.headers.length) :
    filterStep t j (uniqueVals t j) = t := by
  have hrows : t.rows.filter (fun r =>
      match r[j]? with
      | some c => decide (c ∈ uniqueVals t j)
      | none => false) = t.rows := by
    refine List.filter_eq_self.mpr (fun r hr => ?_)
    have hlen : r.length = t.headers.length := by
      have := List.all_eq_true.mp hwf r hr
      simpa using this
    have hjr : j < r.length := hlen ▸ hj
    rw [List.getElem?_eq_getElem hjr]
    have hmem : r[j] ∈ colCells t j :=
      List.mem_filterMap.mpr ⟨r, hr, by rw [List.getElem?_eq_getElem hjr]⟩
    simpa using mem_firstOccsBy_of_mem hmem (by simp)
  cases t with
  | mk hs rs =>
    simp only [filterStep, Table.mk.injEq, true_and]
    exact hrows

theorem c4_witness :
    wfb wT4 = true ∧ 0 < wT4.headers.length ∧
    filterStep wT4 0 (uniqueVals wT4 0) = wT4 :=
  ⟨by decide, by decide, c4_filter_full_unique_noop wT4 0 (by decide) (by decide)⟩

/-! ## The upload loop -/

theorem processFiles_append (xl : List Char → Option Table) (a b : List UploadedFile) :
    processFiles xl (a ++ b) = processFiles xl a ++ processFiles xl b := by
  induction a with
  | nil => rfl
  | cons f fs ih => simp [processFiles, ih]

/-- C1: a file whose lowercased extension is neither `.csv` nor `.xlsx`
yields the surfaced "Unsupported file format" error — no table is created
for it — and every other uploaded file in the session is processed exactly
as it would be without it. -/
theorem c1_unsupported_extension (xl : List Char → Option Table)
    (pre post : List UploadedFile) (f : UploadedFile)
    (h1 : toLowerChars (fileExtOf f.name) ≠ ".csv".toList)
    (h2 : toLowerChars (fileExtOf f.name) ≠ ".xlsx".toList) :
    processFiles xl (pre ++ f :: post)
      = processFiles xl pre ++
        (LoadResult.unsupported
            ("Unsupported file format: ".toList ++ toLowerChars (fileExtOf f.name))
          :: processFiles xl post) := by
  rw [processFiles_append]
  refine congrArg (processFiles xl pre ++ ·) ?_
  show loadFile xl f :: processFiles xl post = _
  refine congrArg (· :: processFiles xl post) ?_
  simp only [loadFile]
  rw [if_neg h1, if_neg h2]

theorem c1_witness :
    toLowerChars (fileExtOf wFileTxt.name) ≠ ".csv".toList ∧
    toLowerChars (fileExtOf wFileTxt.name) ≠ ".xlsx".toList ∧
    processFiles wXl ([wFileCsv] ++ wFileTxt :: [])
      = processFiles wXl [wFileCsv] ++
        (LoadResult.unsupported
            ("Unsupported file format: ".toList ++ toLowerChars (fileExtOf wFileTxt.name))
          :: processFiles wXl []) :=
  ⟨by decide, by decide,
    c1_unsupported_extension wXl [wFileCsv] [] wFileTxt (by decide) (by decide)⟩

/-! ## Fill-missing: the guard and the per-cell effect -/

theorem fillMissingStep_guard_true {t : Table}
    (hb : (((t.headers.filter (fun h => h.dtype = .numeric)).map Hdr.name).any
        (fun n => !n.isEmpty)) = true) :
    fillMissingStep t
      = ({ t with rows := t.rows.map (fun r => List.zipWith (fun f c => f c) (fillFuns t) r) },
         false) := by
  simp only [fillMissingStep]
  rw [if_pos hb]

theorem fillMissingStep_guard_false {t : Table}
    (hb : (((t.headers.filter (fun h => h.dtype = .numeric)).map Hdr.name).any
        (fun n => !n.isEmpty)) = false) :
    fillMissingStep t = (t, true) := by
  simp only [fillMissingStep]
  rw [if_neg (by simp [hb])]

/-- With the non-empty labels this app's loaders produce, `Index.any()`
holds exactly when some numeric column exists. -/
theorem fill_guard_iff (t : Table)
    (hn : t.headers.all (fun h => !h.name.isEmpty) = true) :
    ((((t.headers.filter (fun h => h.dtype = .numeric)).map Hdr.name).any
        (fun n => !n.isEmpty)) = true)
      ↔ t.headers.filter (fun h => h.dtype = .numeric) ≠ [] := by
  constructor
  · intro hb hnil
    rw [hnil] at hb
    simp at hb
  · intro hne
    rcases List.exists_mem_of_ne_nil _ hne with ⟨h, hmem⟩
    refine List.any_eq_true.mpr ⟨h.name, List.mem_map_of_mem _ hmem, ?_⟩
    exact List.all_eq_true.mp hn h (List.mem_of_mem_filter hmem)

theorem cellAt_fillBranch (t : Table) (i j : ℕ) (h : Hdr)
    (hj : t.headers[j]? = some h) :
    cellAt { t with rows := t.rows.map (fun r => List.zipWith (fun f c => f c) (fillFuns t) r) } i j
      = t.rows[i]?.bind (fun r =>
          r[j]?.map (if h.dtype = .numeric then fillCell (colMean t j) else id)) := by
  have hjlt : j < t.headers.length := by
    rcases List.getElem?_eq_some.mp hj with ⟨hlt, _⟩
    exact hlt
  have hfj : (fillFuns t)[j]?
      = some (if h.dtype = .numeric then fillCell (colMean t j) else id) := by
    simp only [fillFuns, List.getElem?_map, List.getElem?_range hjlt, Option.map_some', hj]
  simp only [cellAt, List.getElem?_map]
  cases t.rows[i]? with
  | none => rfl
  | some r => simp [zipWithGetElem, hfj]

/-- C5: FillMissing warns (and changes nothing) exactly when the table has
no numeric columns; otherwise it reports success (never an error), keeps
the column set, and replaces precisely the missing entries of each numeric
column by that column's mean over the currently-present values. -/
theorem c5_fill_missing_guard (t : Table)
    (hn : t.headers.all (fun h => !h.name.isEmpty) = true) :
    ((fillMissingStep t).2 = true ↔ t.headers.filter (fun h => h.dtype = .numeric) = []) ∧
    ((fillMissingStep t).2 = true → (fillMissingStep t).1 = t) ∧
    (fillMissingStep t).1.headers = t.headers ∧
    ((fillMissingStep t).2 = false →
      ∀ i j h c, t.headers[j]? = some h → h.dtype = .numeric →
        cellAt t i j = some c →
          cellAt (fillMissingStep t).1 i j
            = some (if c = .num none then .num (colMean t j) else c)) := by
  by_cases hb : (((t.headers.filter (fun h => h.dtype = .numeric)).map Hdr.name).any
      (fun n => !n.isEmpty)) = true
  · rw [fillMissingStep_guard_true hb]
    refine ⟨?_, ?_, rfl, ?_⟩
    · simp only [iff_false]
      · constructor
        · intro hfalse
          exact absurd hfalse (by simp)
        · intro hnil
          exact absurd hb (by simp [(fill_guard_iff t hn).mp hb, hnil])
    · intro hfalse
      exact absurd hfalse (by simp)
    · intro _ i j h c hj hd hc
      have hr : ∃ r, t.rows[i]? = some r ∧ r[j]? = some c := by
        rcases ho : t.rows[i]? with _ | r
        · rw [cellAt, ho] at hc
          simp at hc
        · rw [cellAt, ho] at hc
          exact ⟨r, rfl, hc⟩
      rcases hr with ⟨r, hri, hrj⟩
      rw [cellAt_fillBranch t i j h hj, hri, Option.some_bind, hrj, Option.map_some']
      rw [if_pos hd]
      cases c with
      | num v =>
        cases v with
        | none => simp [fillCell]
        | some q => simp [fillCell]
      | str o => simp [fillCell]
  · have hb' : (((t.headers.filter (fun h => h.dtype = .numeric)).map Hdr.name).any
        (fun n => !n.isEmpty)) = false := Bool.eq_false_iff.mpr hb
    rw [fillMissingStep_guard_false hb']
    refine ⟨?_, fun _ => rfl, rfl, ?_⟩
    · simp only [true_iff]
      by_contra hne
      exact hb ((fill_guard_iff t hn).mpr hne)
    · intro hfalse
      exact absurd hfalse (by simp)

theorem c5_witness :
    wT5.headers.all (fun h => !h.name.isEmpty) = true ∧
    (fillMissingStep wT5).2 = false ∧
    cellAt (fillMissingStep wT5).1 0 0 = some (.num (some 3)) := by
  refine ⟨by decide, by with_unfolding_all decide, ?_⟩
  have h := (c5_fill_missing_guard wT5 (by decide)).2.2.2
    (by with_unfolding_all decide) 0 0 ⟨"a".toList, .numeric⟩ (.num none)
    (by decide) rfl (by decide)
  rw [h]
  with_unfolding_all decide

/-- C10: each cleaning transform keeps the column set and the row count,
and touches only columns of its own kind: Lowercase and StripSpecialChars
leave every non-text column's cells unchanged, FillMissing leaves every
non-numeric column's cells unchanged. -/
theorem c10_frame_effects (t : Table) :
    (lowercaseStep t).headers = t.headers ∧
    (lowercaseStep t).rows.length = t.rows.length ∧
    (stripSpecialStep t).headers = t.headers ∧
    (stripSpecialStep t).rows.length = t.rows.length ∧
    (fillMissingStep t).1.headers = t.headers ∧
    (fillMissingStep t).1.rows.length = t.rows.length ∧
    (∀ i j h, t.headers[j]? = some h → h.dtype ≠ .text →
      cellAt (lowercaseStep t) i j = cellAt t i j ∧
      cellAt (stripSpecialStep t) i j = cellAt t i j) ∧
    (∀ i j h, t.headers[j]? = some h → h.dtype ≠ .numeric →
      cellAt (fillMissingStep t).1 i j = cellAt t i j) := by
  have hfillframe : (fillMissingStep t).1.headers = t.headers ∧
      (fillMissingStep t).1.rows.length = t.rows.length := by
    by_cases hb : (((t.headers.filter (fun h => h.dtype = .numeric)).map Hdr.name).any
        (fun n => !n.isEmpty)) = true
    · rw [fillMissingStep_guard_true hb]
      exact ⟨rfl, by simp⟩
    · rw [fillMissingStep_guard_false (Bool.eq_false_iff.mpr hb)]
      exact ⟨rfl, rfl⟩
  have hother : ∀ (d : DType) (f : Cell → Cell) (i j : ℕ) (h : Hdr),
      t.headers[j]? = some h → h.dtype ≠ d →
      cellAt (applyOnDtype d f t) i j = cellAt t i j := by
    intro d f i j h hj hd
    rw [cellAt_applyOnDtype, cellAt]
    cases t.rows[i]? with
    | none => rfl
    | some r =>
      simp only [Option.some_bind, hj]
      cases r[j]? with
      | none => rfl
      | some c => simp [if_neg hd]
  refine ⟨rfl, by simp [lowercaseStep, applyOnDtype], rfl,
          by simp [stripSpecialStep, applyOnDtype],
          hfillframe.1, hfillframe.2, ?_, ?_⟩
  · intro i j h hj hd
    exact ⟨hother .text lowerCell i j h hj hd, hother .text stripCell i j h hj hd⟩
  · intro i j h hj hd
    by_cases hb : (((t.headers.filter (fun h => h.dtype = .numeric)).map Hdr.name).any
        (fun n => !n.isEmpty)) = true
    · rw [fillMissingStep_guard_true hb]
      rw [cellAt_fillBranch t i j h hj, if_neg hd, cellAt]
      cases t.rows[i]? with
      | none => rfl
      | some r => simp
    · rw [fillMissingStep_guard_false (Bool.eq_false_iff.mpr hb)]

theorem c10_witness :
    wT10.headers[1]? = some ⟨"n".toList, .numeric⟩ ∧
    cellAt (lowercaseStep wT10) 0 1 = cellAt wT10 0 1 ∧
    cellAt (stripSpecialStep wT10) 0 1 = cellAt wT10 0 1 ∧
    (lowercaseStep wT10).rows.length = wT10.rows.length := by
  have h := (c10_frame_effects wT10).2.2.2.2.2.2.1 0 1 ⟨"n".toList, .numeric⟩
    (by decide) (by decide)
  exact ⟨by decide, h.1, h.2, (c10_frame_effects wT10).2.1⟩

/-! ## The CSV round trip -/

/-- C7 counterexample: exporting a table containing a present empty-string
text cell and reloading the bytes yields a table that differs in values —
the empty string becomes a missing entry (pandas reads an empty field as
NaN) — which is not a float-precision or formatting difference. -/
theorem c7_roundtrip_counterexample :
    readCsv (writeCsv wTCE) = some wTCE' ∧ tableValuesEq wTCE wTCE' = false :=
  ⟨by decide, by decide⟩

/-! ## Decimal digits: rendering and parsing are mutually inverse -/

theorem natCharsAux_fuel (f1 f2 n : ℕ) (h1 : n < f1) (h2 : n < f2) :
    natCharsAux f1 n = natCharsAux f2 n := by
  induction f1 generalizing f2 n with
  | zero => omega
  | succ f1 ih =>
    cases f2 with
    | zero => omega
    | succ f2 =>
      simp only [natCharsAux]
      by_cases h : n < 10
      · rw [if_pos h, if_pos h]
      · rw [if_neg h, if_neg h]
        have hd : n / 10 < n := Nat.div_lt_self (by omega) (by omega)
        rw [ih f2 (n / 10) (by omega) (by omega)]

theorem natChars_eq (n : ℕ) :
    natChars n
      = if n < 10 then [Nat.digitChar n]
        else natChars (n / 10) ++ [Nat.digitChar (n % 10)] := by
  show natCharsAux (n + 1) n = _
  simp only [natCharsAux]
  by_cases h : n < 10
  · rw [if_pos h, if_pos h]
  · rw [if_neg h, if_neg h]
    have hd : n / 10 < n := Nat.div_lt_self (by omega) (by omega)
    rw [natCharsAux_fuel n (n / 10 + 1) (n / 10) (by omega) (by omega)]
    rfl

theorem digitChar_isDigit {d : ℕ} (h : d < 10) : (Nat.digitChar d).isDigit = true := by
  interval_cases d <;> decide

theorem digitChar_val {d : ℕ} (h : d < 10) : (Nat.digitChar d).toNat - 48 = d := by
  interval_cases d <;> decide

theorem natChars_ne_nil (n : ℕ) : natChars n ≠ [] := by
  rw [natChars_eq]
  by_cases h : n < 10
  · rw [if_pos h]
    simp
  · rw [if_neg h]
    simp

theorem natChars_isEmpty_false (n : ℕ) : (natChars n).isEmpty = false := by
  cases h : natChars n with
  | nil => exact absurd h (natChars_ne_nil n)
  | cons a l => rfl

theorem natChars_all_digit (n : ℕ) : ∀ c ∈ natChars n, c.isDigit = true := by
  induction n using Nat.strong_induction_on with
  | _ n ih =>
    rw [natChars_eq]
    by_cases h : n < 10
    · rw [if_pos h]
      intro c hc
      rw [List.mem_singleton.mp hc]
      exact digitChar_isDigit h
    · rw [if_neg h]
      intro c hc
      rcases List.mem_append.mp hc with hc | hc
      · exact ih (n / 10) (Nat.div_lt_self (by omega) (by omega)) c hc
      · rw [List.mem_singleton.mp hc]
        exact digitChar_isDigit (Nat.mod_lt _ (by omega))

theorem digitsVal_append (ds : List Char) (c : Char) :
    digitsVal (ds ++ [c]) = 10 * digitsVal ds + (c.toNat - 48) := by
  simp [digitsVal, List.foldl_append]

theorem digitsVal_natChars (n : ℕ) : digitsVal (natChars n) = n := by
  induction n using Nat.strong_induction_on with
  | _ n ih =>
    rw [natChars_eq]
    by_cases h : n < 10
    · rw [if_pos h]
      show 10 * 0 + ((Nat.digitChar n).toNat - 48) = n
      rw [digitChar_val h]
      omega
    · rw [if_neg h, digitsVal_append, ih (n / 10) (Nat.div_lt_self (by omega) (by omega)),
        digitChar_val (Nat.mod_lt _ (by omega))]
      omega

theorem natChars_length_le : ∀ (n k : ℕ), 1 ≤ k → n < 10 ^ k → (natChars n).length ≤ k := by
  intro n
  induction n using Nat.strong_induction_on with
  | _ n ih =>
    intro k hk h
    rw [natChars_eq]
    by_cases hn : n < 10
    · rw [if_pos hn]
      simpa using hk
    · rw [if_neg hn, List.length_append]
      have hk2 : 2 ≤ k := by
        rcases Nat.lt_or_ge k 2 with hlt | hge
        · have hk1 : k = 1 := by omega
          subst hk1
          simp only [pow_one] at h
          omega
        · exact hge
      have hdiv : n / 10 < 10 ^ (k - 1) := by
        have h10 : (10 : ℕ) ^ k = 10 ^ (k - 1) * 10 := by
          rw [← pow_succ]
          congr 1
          omega
        rw [Nat.div_lt_iff_lt_mul (by omega)]
        omega
      have := ih (n / 10) (Nat.div_lt_self (by omega) (by omega)) (k - 1) (by omega) hdiv
      simp only [List.length_singleton]
      omega

theorem digitsVal_cons_zero (l : List Char) : digitsVal ('0' :: l) = digitsVal l := rfl

theorem digitsVal_replicate_zero (k : ℕ) (ds : List Char) :
    digitsVal (List.replicate k '0' ++ ds) = digitsVal ds := by
  induction k with
  | zero => rfl
  | succ k ih =>
    rw [List.replicate_succ, List.cons_append, digitsVal_cons_zero, ih]

theorem takeWhile_append_all {p : Char → Bool} {ds : List Char}
    (h : ∀ c ∈ ds, p c = true) (rest : List Char) :
    (ds ++ rest).takeWhile p = ds ++ rest.takeWhile p := by
  induction ds with
  | nil => rfl
  | cons d ds ih =>
    rw [List.cons_append, List.takeWhile_cons_of_pos (h d (List.mem_cons_self _ _))]
    exact congrArg (d :: ·) (ih (fun c hc => h c (List.mem_cons_of_mem _ hc)))

theorem dropWhile_append_all {p : Char → Bool} {ds : List Char}
    (h : ∀ c ∈ ds, p c = true) (rest : List Char) :
    (ds ++ rest).dropWhile p = rest.dropWhile p := by
  induction ds with
  | nil => rfl
  | cons d ds ih =>
    rw [List.cons_append, List.dropWhile_cons_of_pos (h d (List.mem_cons_self _ _))]
    exact ih (fun c hc => h c (List.mem_cons_of_mem _ hc))

theorem takeDigits_all {ds : List Char} (h : ∀ c ∈ ds, c.isDigit = true) :
    takeDigits ds = (ds, []) := by
  have h1 := takeWhile_append_all h ([] : List Char)
  have h2 := dropWhile_append_all h ([] : List Char)
  simp only [List.append_nil] at h1 h2
  simp [takeDigits, h1, h2]

theorem takeDigits_append_nondigit {ds rest : List Char} {x : Char}
    (h : ∀ c ∈ ds, c.isDigit = true) (hx : x.isDigit = false) :
    takeDigits (ds ++ x :: rest) = (ds, x :: rest) := by
  have h1 := takeWhile_append_all h (x :: rest)
  have h2 := dropWhile_append_all h (x :: rest)
  rw [List.takeWhile_cons_of_neg (by simp [hx])] at h1
  rw [List.dropWhile_cons_of_neg (by simp [hx])] at h2
  simp [takeDigits, h1, h2]

theorem digit_ne {c x : Char} (h : c.isDigit = true) (hx : x.isDigit = false) : c ≠ x := by
  intro he
  subst he
  rw [h] at hx
  cases hx

theorem splitSign_dash (r : List Char) : splitSign ('-' :: r) = (true, r) := by
  simp [splitSign]

theorem splitSign_nosign {c : Char} (r : List Char) (h1 : c ≠ '-') (h2 : c ≠ '+') :
    splitSign (c :: r) = (false, c :: r) := by
  simp [splitSign, h1, h2]

theorem isEmpty_false_of_ne_nil {l : List Char} (h : l ≠ []) : l.isEmpty = false := by
  cases l with
  | nil => exact absurd rfl h
  | cons a t => rfl

theorem parseNumCore_int_neg {ds : List Char}
    (hds : ∀ c ∈ ds, c.isDigit = true) (hne : ds ≠ []) :
    parseNumCore ('-' :: ds) = some (-(digitsVal ds : ℚ)) := by
  have hemp := isEmpty_false_of_ne_nil hne
  simp only [parseNumCore, splitSign_dash, takeDigits_all hds, hemp]
  norm_num [applySign]

theorem parseNumCore_int_pos {ds : List Char}
    (hds : ∀ c ∈ ds, c.isDigit = true) (hne : ds ≠ []) :
    parseNumCore ds = some ((digitsVal ds : ℚ)) := by
  have hemp := isEmpty_false_of_ne_nil hne
  cases ds with
  | nil => exact absurd rfl hne
  | cons c cs =>
    have hc := hds c (List.mem_cons_self _ _)
    simp only [parseNumCore,
      splitSign_nosign cs (digit_ne hc (by decide)) (digit_ne hc (by decide)),
      takeDigits_all hds, hemp]
    norm_num [applySign]

theorem parseNumCore_dot_neg {ds fs : List Char}
    (hds : ∀ c ∈ ds, c.isDigit = true) (hfs : ∀ c ∈ fs, c.isDigit = true)
    (hne : ds ≠ []) :
    parseNumCore ('-' :: (ds ++ '.' :: fs))
      = some (-((digitsVal ds : ℚ) + (digitsVal fs : ℚ) / (10 : ℚ) ^ fs.length)) := by
  have hemp := isEmpty_false_of_ne_nil hne
  simp only [parseNumCore, splitSign_dash,
    takeDigits_append_nondigit hds (by decide : ('.').isDigit = false),
    takeDigits_all hfs, hemp]
  norm_num [applySign]

theorem parseNumCore_dot_pos {ds fs : List Char}
    (hds : ∀ c ∈ ds, c.isDigit = true) (hfs : ∀ c ∈ fs, c.isDigit = true)
    (hne : ds ≠ []) :
    parseNumCore (ds ++ '.' :: fs)
      = some ((digitsVal ds : ℚ) + (digitsVal fs : ℚ) / (10 : ℚ) ^ fs.length) := by
  have hemp := isEmpty_false_of_ne_nil hne
  cases ds with
  | nil => exact absurd rfl hne
  | cons c cs =>
    have hc := hds c (List.mem_cons_self _ _)
    have hsplit : splitSign ((c :: cs) ++ '.' :: fs) = (false, (c :: cs) ++ '.' :: fs) := by
      rw [List.cons_append]
      exact splitSign_nosign _ (digit_ne hc (by decide)) (digit_ne hc (by decide))
    simp only [parseNumCore, hsplit,
      takeDigits_append_nondigit hds (by decide : ('.').isDigit = false),
      takeDigits_all hfs, hemp]
    norm_num [applySign]

theorem cast_natAbs_div_den (q : ℚ) (hpos : ¬q.num < 0) :
    ((q.num.natAbs : ℚ)) / ((q.den : ℚ)) = q := by
  have h2 : ((q.num.natAbs : ℚ)) = ((q.num : ℚ)) := by
    rw [Int.cast_natAbs]
    exact_mod_cast abs_of_nonneg (not_lt.mp hpos)
  rw [h2]
  exact Rat.num_div_den q

theorem neg_cast_natAbs_div_den (q : ℚ) (hneg : q.num < 0) :
    -(((q.num.natAbs : ℚ)) / ((q.den : ℚ))) = q := by
  have h2 : ((q.num.natAbs : ℚ)) = -((q.num : ℚ)) := by
    rw [Int.cast_natAbs]
    exact_mod_cast abs_of_neg hneg
  rw [h2, neg_div, neg_neg]
  exact Rat.num_div_den q

theorem mant_value (q : ℚ) (e : ℕ) (hdvd : q.den ∣ 10 ^ e) :
    ((q.num.natAbs * 10 ^ e / q.den / 10 ^ e : ℕ) : ℚ)
      + ((q.num.natAbs * 10 ^ e / q.den % 10 ^ e : ℕ) : ℚ) / (10 : ℚ) ^ e
      = (q.num.natAbs : ℚ) / (q.den : ℚ) := by
  have hden : 0 < q.den := q.pos
  have hmden : q.num.natAbs * 10 ^ e / q.den * q.den = q.num.natAbs * 10 ^ e :=
    Nat.div_mul_cancel (hdvd.mul_left _)
  have hne1 : ((10 : ℚ) ^ e) ≠ 0 := by positivity
  have hne2 : ((q.den : ℚ)) ≠ 0 := Nat.cast_ne_zero.mpr (by omega)
  have h1 : ((q.num.natAbs * 10 ^ e / q.den / 10 ^ e : ℕ) : ℚ) * (10 : ℚ) ^ e
      + ((q.num.natAbs * 10 ^ e / q.den % 10 ^ e : ℕ) : ℚ)
      = ((q.num.natAbs * 10 ^ e / q.den : ℕ) : ℚ) := by
    exact_mod_cast Nat.div_add_mod' (q.num.natAbs * 10 ^ e / q.den) (10 ^ e)
  have h3 : ((q.num.natAbs * 10 ^ e / q.den / 10 ^ e : ℕ) : ℚ)
      + ((q.num.natAbs * 10 ^ e / q.den % 10 ^ e : ℕ) : ℚ) / (10 : ℚ) ^ e
      = ((q.num.natAbs * 10 ^ e / q.den : ℕ) : ℚ) / (10 : ℚ) ^ e := by
    rw [eq_div_iff hne1, add_mul, div_mul_cancel₀ _ hne1]
    exact h1
  rw [h3, div_eq_div_iff hne1 hne2]
  exact_mod_cast hmden

theorem digit_numChar {c : Char} (h : c.isDigit = true) : numChar c = true := by
  simp [numChar, h]

theorem qToChars_numChar (q : ℚ) : ∀ c ∈ qToChars q, numChar c = true := by
  intro c hc
  cases hde : decExp q.den with
  | none =>
    simp only [qToChars, hde] at hc
    rw [List.mem_singleton.mp hc]
    decide
  | some e =>
    simp only [qToChars, hde] at hc
    rcases List.mem_append.mp hc with hc | hc
    · rcases List.mem_append.mp hc with hc | hc
      · by_cases hneg : q.num < 0
        · rw [if_pos hneg] at hc
          rw [List.mem_singleton.mp hc]
          decide
        · rw [if_neg hneg] at hc
          simp at hc
      · exact digit_numChar (natChars_all_digit _ c hc)
    · by_cases he0 : e = 0
      · rw [if_pos he0] at hc
        simp at hc
      · rw [if_neg he0] at hc
        rcases List.mem_cons.mp hc with hc | hc
        · rw [hc]
          decide
        · rcases List.mem_append.mp hc with hc | hc
          · rw [List.eq_of_mem_replicate hc]
            decide
          · exact digit_numChar (natChars_all_digit _ c hc)

theorem dropWhile_eq_self_of_neg {p : Char → Bool} {s : List Char}
    (h : ∀ c ∈ s, p c = false) : s.dropWhile p = s := by
  cases s with
  | nil => rfl
  | cons c cs =>
    exact List.dropWhile_cons_of_neg (by simp [h c (List.mem_cons_self _ _)])

theorem trimWs_eq_self {s : List Char} (h : ∀ c ∈ s, wsChar c = false) : trimWs s = s := by
  rw [trimWs, dropWhile_eq_self_of_neg h,
    dropWhile_eq_self_of_neg (fun c hc => h c (List.mem_reverse.mp hc)), List.reverse_reverse]

theorem numChar_not_ws {c : Char} (h : numChar c = true) : wsChar c = false := by
  rw [numChar] at h
  rcases (by simpa using h : (c.isDigit = true ∨ c = '-') ∨ c = '.') with hd | he
  · rcases hd with hd | he
    · simp [wsChar, digit_ne hd (by decide : (' ').isDigit = false),
        digit_ne hd (by decide : ('\t').isDigit = false),
        digit_ne hd (by decide : ('\n').isDigit = false),
        digit_ne hd (by decide : ('\r').isDigit = false),
        digit_ne hd (by decide : (Char.ofNat 11).isDigit = false),
        digit_ne hd (by decide : (Char.ofNat 12).isDigit = false)]
    · subst he
      decide
  · subst he
    decide

/-- Printing a rational with terminating decimal expansion and parsing it
back is the identity: the model-level content of pandas' float round trip
through `to_csv` / `read_csv`.  The rendering contains no whitespace, so
the converter's whitespace stripping is the identity on it. -/
theorem parseNumChars_qToChars (q : ℚ) (hq : (decExp q.den).isSome) :
    parseNumChars (qToChars q) = some q := by
  have htrim : trimWs (qToChars q) = qToChars q :=
    trimWs_eq_self (fun c hc => numChar_not_ws (qToChars_numChar q c hc))
  rw [parseNumChars, htrim]
  rcases Option.isSome_iff_exists.mp hq with ⟨e, he⟩
  have hdvd : q.den ∣ 10 ^ e := by
    have h := List.find?_some he
    simpa using h
  have hden : 0 < q.den := q.pos
  have hqc : qToChars q
      = (if q.num < 0 then ['-'] else [])
          ++ natChars (q.num.natAbs * 10 ^ e / q.den / 10 ^ e)
          ++ (if e = 0 then []
              else '.' ::
                (List.replicate
                    (e - (natChars (q.num.natAbs * 10 ^ e / q.den % 10 ^ e)).length) '0'
                  ++ natChars (q.num.natAbs * 10 ^ e / q.den % 10 ^ e))) := by
    simp only [qToChars, he]
  rcases Nat.eq_zero_or_pos e with he0 | hepos
  · subst he0
    have hden1 : q.den = 1 := Nat.dvd_one.mp (by simpa using hdvd)
    have hm0 : q.num.natAbs * 10 ^ 0 / q.den / 10 ^ 0 = q.num.natAbs := by
      rw [hden1]
      simp
    rw [hqc, if_pos rfl, List.append_nil, hm0]
    have hval : ((q.num.natAbs : ℚ)) = (q.num.natAbs : ℚ) / (q.den : ℚ) := by
      rw [hden1]
      simp
    by_cases hneg : q.num < 0
    · rw [if_pos hneg, List.singleton_append,
        parseNumCore_int_neg (natChars_all_digit _) (natChars_ne_nil _),
        digitsVal_natChars]
      rw [hval, neg_cast_natAbs_div_den q hneg]
    · rw [if_neg hneg, List.nil_append,
        parseNumCore_int_pos (natChars_all_digit _) (natChars_ne_nil _),
        digitsVal_natChars]
      rw [hval, cast_natAbs_div_den q hneg]
  · have hene : e ≠ 0 := by omega
    have hfplt : q.num.natAbs * 10 ^ e / q.den % 10 ^ e < 10 ^ e :=
      Nat.mod_lt _ (by positivity)
    have hlenle : (natChars (q.num.natAbs * 10 ^ e / q.den % 10 ^ e)).length ≤ e :=
      natChars_length_le _ e (by omega) hfplt
    have hFdig : ∀ c ∈ List.replicate
          (e - (natChars (q.num.natAbs * 10 ^ e / q.den % 10 ^ e)).length) '0'
        ++ natChars (q.num.natAbs * 10 ^ e / q.den % 10 ^ e), c.isDigit = true := by
      intro c hc
      rcases List.mem_append.mp hc with hc | hc
      · rw [List.eq_of_mem_replicate hc]
        decide
      · exact natChars_all_digit _ c hc
    have hFval : digitsVal (List.replicate
          (e - (natChars (q.num.natAbs * 10 ^ e / q.den % 10 ^ e)).length) '0'
        ++ natChars (q.num.natAbs * 10 ^ e / q.den % 10 ^ e))
        = q.num.natAbs * 10 ^ e / q.den % 10 ^ e := by
      rw [digitsVal_replicate_zero, digitsVal_natChars]
    have hFlen : (List.replicate
          (e - (natChars (q.num.natAbs * 10 ^ e / q.den % 10 ^ e)).length) '0'
        ++ natChars (q.num.natAbs * 10 ^ e / q.den % 10 ^ e)).length = e := by
      rw [List.length_append, List.length_replicate]
      omega
    rw [hqc, if_neg hene]
    by_cases hneg : q.num < 0
    · rw [if_pos hneg, List.append_assoc, List.singleton_append,
        parseNumCore_dot_neg (natChars_all_digit _) hFdig (natChars_ne_nil _),
        digitsVal_natChars, hFval, hFlen, mant_value q e hdvd,
        neg_cast_natAbs_div_den q hneg]
    · rw [if_neg hneg, List.nil_append,
        parseNumCore_dot_pos (natChars_all_digit _) hFdig (natChars_ne_nil _),
        digitsVal_natChars, hFval, hFlen, mant_value q e hdvd,
        cast_natAbs_div_den q hneg]

/-! ## CSV record and field splitting -/

theorem splitOn_ne_nil (sep : Char) (s : List Char) : splitOn sep s ≠ [] := by
  cases s with
  | nil => simp [splitOn]
  | cons x xs =>
    simp only [splitOn]
    cases splitOn sep xs with
    | nil => simp
    | cons y ys =>
      by_cases h : x = sep
      · simp [h]
      · simp [h]

theorem splitOn_append_sep {sep : Char} {l : List Char} (h : sep ∉ l) (rest : List Char) :
    splitOn sep (l ++ sep :: rest) = l :: splitOn sep rest := by
  induction l with
  | nil =>
    rw [List.nil_append]
    have hstep : splitOn sep (sep :: rest)
        = match splitOn sep rest with
          | [] => [[]]
          | y :: ys => if sep = sep then [] :: y :: ys else (sep :: y) :: ys := rfl
    rw [hstep]
    cases hr : splitOn sep rest with
    | nil => exact absurd hr (splitOn_ne_nil sep rest)
    | cons y ys => simp
  | cons c l ih =>
    have hc : c ≠ sep := fun he => h (he ▸ List.mem_cons_self _ _)
    have hl : sep ∉ l := fun hm => h (List.mem_cons_of_mem _ hm)
    rw [List.cons_append]
    have hstep : splitOn sep (c :: (l ++ sep :: rest))
        = match splitOn sep (l ++ sep :: rest) with
          | [] => [[]]
          | y :: ys => if c = sep then [] :: y :: ys else (c :: y) :: ys := rfl
    rw [hstep, ih hl]
    show (if c = sep then [] :: l :: splitOn sep rest else (c :: l) :: splitOn sep rest) = _
    rw [if_neg hc]

theorem splitOn_no_sep {sep : Char} {l : List Char} (h : sep ∉ l) : splitOn sep l = [l] := by
  induction l with
  | nil => rfl
  | cons c cs ih =>
    have hc : c ≠ sep := fun he => h (he ▸ List.mem_cons_self _ _)
    have hcs : sep ∉ cs := fun hm => h (List.mem_cons_of_mem _ hm)
    have hstep : splitOn sep (c :: cs)
        = match splitOn sep cs with
          | [] => [[]]
          | y :: ys => if c = sep then [] :: y :: ys else (c :: y) :: ys := rfl
    rw [hstep, ih hcs]
    show (if c = sep then [] :: cs :: [] else (c :: cs) :: ([] : List (List Char))) = _
    rw [if_neg hc]

theorem splitOn_join_lines (lines : List (List Char))
    (h : ∀ l ∈ lines, '\n' ∉ l) :
    splitOn '\n' ((lines.map (fun l => l ++ ['\n'])).flatten) = lines ++ [[]] := by
  induction lines with
  | nil => rfl
  | cons l ls ih =>
    rw [List.map_cons, List.flatten_cons, List.append_assoc, List.singleton_append,
      splitOn_append_sep (h l (List.mem_cons_self _ _)) _,
      ih (fun l' hl' => h l' (List.mem_cons_of_mem _ hl'))]
    rfl

theorem splitRecords_join (lines : List (List Char))
    (hn : ∀ l ∈ lines, '\n' ∉ l) (hne : ∀ l ∈ lines, l ≠ []) :
    splitRecords ((lines.map (fun l => l ++ ['\n'])).flatten) = lines := by
  rw [splitRecords, splitOn_join_lines lines hn, List.filter_append]
  have h1 : List.filter (fun l => !l.isEmpty) [([] : List Char)] = [] := rfl
  rw [h1, List.append_nil]
  refine List.filter_eq_self.mpr (fun l hl => ?_)
  rw [isEmpty_false_of_ne_nil (hne l hl)]
  rfl

theorem mem_joinFields {c : Char} {fs : List (List Char)} (h : c ∈ joinFields fs) :
    c = ',' ∨ ∃ f ∈ fs, c ∈ f := by
  induction fs with
  | nil => simp [joinFields] at h
  | cons f fs ih =>
    cases fs with
    | nil =>
      right
      exact ⟨f, List.mem_cons_self _ _, h⟩
    | cons g gs =>
      have hstep : joinFields (f :: g :: gs) = f ++ ',' :: joinFields (g :: gs) := rfl
      rw [hstep] at h
      rcases List.mem_append.mp h with h | h
      · right
        exact ⟨f, List.mem_cons_self _ _, h⟩
      · rcases List.mem_cons.mp h with h | h
        · left
          exact h
        · rcases ih h with h | ⟨f', hf', hc⟩
          · left
            exact h
          · right
            exact ⟨f', List.mem_cons_of_mem _ hf', hc⟩

theorem joinFields_ne_nil {f : List Char} {fs : List (List Char)}
    (hne : f ≠ [] ∨ fs ≠ []) : joinFields (f :: fs) ≠ [] := by
  cases fs with
  | nil =>
    show f ≠ []
    rcases hne with h | h
    · exact h
    · exact absurd rfl h
  | cons g gs =>
    have hstep : joinFields (f :: g :: gs) = f ++ ',' :: joinFields (g :: gs) := rfl
    rw [hstep]
    simp

theorem splitOn_joinFields {fs : List (List Char)} (hne : fs ≠ [])
    (h : ∀ f ∈ fs, ',' ∉ f) :
    splitOn ',' (joinFields fs) = fs := by
  induction fs with
  | nil => exact absurd rfl hne
  | cons f fs ih =>
    cases fs with
    | nil =>
      show splitOn ',' f = [f]
      exact splitOn_no_sep (h f (List.mem_cons_self _ _))
    | cons g gs =>
      have hstep : joinFields (f :: g :: gs) = f ++ ',' :: joinFields (g :: gs) := rfl
      rw [hstep, splitOn_append_sep (h f (List.mem_cons_self _ _)) _,
        ih (by simp) (fun f' hf' => h f' (List.mem_cons_of_mem _ hf'))]

theorem unquoteField_eq_self {f : List Char} (h : ∀ c ∈ f, c ≠ '"') :
    unquoteField f = f := by
  cases f with
  | nil => rfl
  | cons c r =>
    have hstep : unquoteField (c :: r)
        = if c = '"' then
            (if r ≠ [] && r.getLast? == some '"' then collapseQQ r.dropLast else c :: r)
          else c :: r := rfl
    rw [hstep, if_neg (h c (List.mem_cons_self _ _))]

theorem splitFields_joinFields {fs : List (List Char)} (hne : fs ≠ [])
    (hc : ∀ f ∈ fs, ',' ∉ f) (hq : ∀ f ∈ fs, ∀ c ∈ f, c ≠ '"') :
    splitFields (joinFields fs) = fs := by
  rw [splitFields, splitOn_joinFields hne hc]
  have hid : ∀ f ∈ fs, unquoteField f = id f := fun f hf => unquoteField_eq_self (hq f hf)
  rw [List.map_congr_left hid, List.map_id]

/-! ## Character classes of rendered fields -/

theorem plainChar_cases {c : Char} (h : plainChar c = true) :
    c ≠ ',' ∧ c ≠ '"' ∧ c ≠ '\n' ∧ c ≠ '\r' := by
  rw [plainChar, Bool.not_eq_true'] at h
  simp only [Bool.or_eq_false_iff, decide_eq_false_iff_not] at h
  exact ⟨h.1.1.1, h.1.1.2, h.1.2, h.2⟩

theorem renderField_eq_self {s : List Char} (h : s.all plainChar = true) :
    renderField s = s := by
  have hq : needsQuote s = false := by
    rw [Bool.eq_false_iff]
    intro hany
    rcases List.any_eq_true.mp hany with ⟨c, hc, hp⟩
    have hpl := plainChar_cases (List.all_eq_true.mp h c hc)
    simp only [Bool.or_eq_true, decide_eq_true_eq] at hp
    rcases hp with ((h1 | h2) | h3) | h4
    · exact hpl.1 h1
    · exact hpl.2.1 h2
    · exact hpl.2.2.1 h3
    · exact hpl.2.2.2 h4
  rw [renderField, hq]
  rw [if_neg Bool.false_ne_true]

theorem qToChars_ne_nil (q : ℚ) : qToChars q ≠ [] := by
  cases hde : decExp q.den with
  | none =>
    simp [qToChars, hde]
  | some e =>
    simp only [qToChars, hde]
    intro h
    rcases List.append_eq_nil.mp h with ⟨h1, _⟩
    rcases List.append_eq_nil.mp h1 with ⟨_, h2⟩
    exact natChars_ne_nil _ h2

theorem numChar_plain {c : Char} (h : numChar c = true) :
    c ≠ ',' ∧ c ≠ '"' ∧ c ≠ '\n' ∧ c ≠ '\r' := by
  rw [numChar] at h
  rcases (by simpa using h : (c.isDigit = true ∨ c = '-') ∨ c = '.') with hd | he
  · rcases hd with hd | he
    · exact ⟨digit_ne hd (by decide), digit_ne hd (by decide), digit_ne hd (by decide),
        digit_ne hd (by decide)⟩
    · subst he
      exact ⟨by decide, by decide, by decide, by decide⟩
  · subst he
    exact ⟨by decide, by decide, by decide, by decide⟩

theorem na_token_shape : ∀ s ∈ naTokens, s = [] ∨ ∃ c ∈ s, numChar c = false := by
  decide

theorem qToChars_not_na (q : ℚ) : qToChars q ∉ naTokens := by
  intro hmem
  rcases na_token_shape _ hmem with h | ⟨c, hc, hfalse⟩
  · exact qToChars_ne_nil q h
  · rw [qToChars_numChar q c hc] at hfalse
    cases hfalse

theorem naTokens_subset_naLike {s : List Char} (h : s ∈ naTokens) : s ∈ naLike :=
  List.mem_append_left _ h

/-! ## Indexed access helpers for the round-trip assembly -/

theorem zipWith_all_getD {α β : Type} (p : α → β → Bool) (as : List α) (bs : List β)
    (da : α) (db : β) (h : (List.zipWith p as bs).all id = true) :
    ∀ j, j < as.length → j < bs.length → p (as.getD j da) (bs.getD j db) = true := by
  induction as generalizing bs with
  | nil =>
    intro j hj1 _
    simp at hj1
  | cons a as ih =>
    cases bs with
    | nil =>
      intro j _ hj2
      simp at hj2
    | cons b bs =>
      rw [List.zipWith_cons_cons, List.all_cons, Bool.and_eq_true] at h
      rcases h with ⟨h1, h2⟩
      intro j hj1 hj2
      cases j with
      | zero => simpa using h1
      | succ j =>
        simp only [List.getD_cons_succ]
        exact ih bs h2 j (by simpa using hj1) (by simpa using hj2)

theorem all_zipWith_of_getD {α β : Type} (p : α → β → Bool) (as : List α) (bs : List β)
    (da : α) (db : β)
    (h : ∀ j, j < as.length → j < bs.length → p (as.getD j da) (bs.getD j db) = true) :
    (List.zipWith p as bs).all id = true := by
  induction as generalizing bs with
  | nil => rfl
  | cons a as ih =>
    cases bs with
    | nil => rfl
    | cons b bs =>
      rw [List.zipWith_cons_cons, List.all_cons, Bool.and_eq_true]
      refine ⟨by simpa using h 0 (by simp) (by simp), ?_⟩
      refine ih bs (fun j hj1 hj2 => ?_)
      have := h (j + 1) (by simpa using hj1) (by simpa using hj2)
      simpa using this

theorem zipWith_getD {α β γ : Type} (f : α → β → γ) (as : List α) (bs : List β) (j : ℕ)
    (hj1 : j < as.length) (hj2 : j < bs.length) (d : γ) (da : α) (db : β) :
    (List.zipWith f as bs).getD j d = f (as.getD j da) (bs.getD j db) := by
  induction as generalizing bs j with
  | nil => simp at hj1
  | cons a as ih =>
    cases bs with
    | nil => simp at hj2
    | cons b bs =>
      cases j with
      | zero => rfl
      | succ j =>
        simp only [List.zipWith_cons_cons, List.getD_cons_succ]
        exact ih bs j (by simpa using hj1) (by simpa using hj2)

theorem getD_map_lt {α β : Type} (f : α → β) (l : List α) (j : ℕ) (hj : j < l.length)
    (d : β) (d' : α) : (l.map f).getD j d = f (l.getD j d') := by
  rw [List.getD_eq_getElem _ _ (by simpa using hj), List.getD_eq_getElem _ _ hj]
  simp

theorem getD_range_lt (n j : ℕ) (hj : j < n) (d : ℕ) : (List.range n).getD j d = j := by
  rw [List.getD_eq_getElem _ _ (by simpa using hj)]
  simp

theorem zipWith_map_self_all {α β : Type} (p : α → β → Bool) (F : α → β) (l : List α)
    (h : ∀ x ∈ l, p x (F x) = true) : (List.zipWith p l (l.map F)).all id = true := by
  induction l with
  | nil => rfl
  | cons a l ih =>
    rw [List.map_cons, List.zipWith_cons_cons, List.all_cons, Bool.and_eq_true]
    exact ⟨by simpa using h a (List.mem_cons_self _ _),
      ih (fun x hx => h x (List.mem_cons_of_mem _ hx))⟩

theorem map_name_zipWith_mk (ns : List (List Char)) (ds : List DType)
    (h : ns.length ≤ ds.length) :
    (List.zipWith (fun n d => Hdr.mk n d) ns ds).map Hdr.name = ns := by
  induction ns generalizing ds with
  | nil => simp
  | cons n ns ih =>
    cases ds with
    | nil => simp at h
    | cons d ds =>
      rw [List.zipWith_cons_cons, List.map_cons]
      exact congrArg (n :: ·) (ih ds (by simpa using h))

theorem mkCell_na {d : DType} {f : List Char} (h : f ∈ naTokens) :
    mkCell d f = (match d with | .numeric => .num none | .text => .str none) := by
  rw [mkCell.eq_def, if_pos h]

theorem mkCell_not_na {d : DType} {f : List Char} (h : f ∉ naTokens) :
    mkCell d f = (match d with | .numeric => .num (parseNumChars f) | .text => .str (some f)) := by
  rw [mkCell.eq_def, if_neg h]

theorem safeText_parts {s : List Char} (h : safeText s = true) :
    s ≠ [] ∧ parseNumChars s = none ∧ s ∉ naLike ∧ s.all plainChar = true := by
  rw [safeText] at h
  simp only [Bool.and_eq_true] at h
  obtain ⟨⟨⟨⟨h1, h2⟩, h3⟩, _⟩, h4⟩ := h
  refine ⟨?_, ?_, ?_, h4⟩
  · intro he
    rw [he] at h1
    simp at h1
  · exact Option.isNone_iff_eq_none.mp h2
  · intro hmem
    rw [Bool.not_eq_true'] at h3
    exact absurd (decide_eq_true hmem) (by rw [h3]; simp)

theorem cellField_plain {c : Cell} (hsafe : csvSafeCell c = true) :
    ∀ ch ∈ cellField c, ch ≠ ',' ∧ ch ≠ '"' ∧ ch ≠ '\n' ∧ ch ≠ '\r' := by
  intro ch hch
  cases c with
  | num v =>
    cases v with
    | none => simp [cellField] at hch
    | some q =>
      have hn := qToChars_numChar q ch (by simpa [cellField] using hch)
      exact numChar_plain hn
  | str o =>
    cases o with
    | none => simp [cellField] at hch
    | some s =>
      have hst : safeText s = true := hsafe
      have hplain := (safeText_parts hst).2.2.2
      have hchs : ch ∈ s := by
        have hrf : renderField s = s := renderField_eq_self hplain
        simpa [cellField, hrf] using hch
      exact plainChar_cases (List.all_eq_true.mp hplain ch hchs)

theorem readCsvTable_eval (headerLine : List Char) (dataLines : List (List Char))
    (names : List (List Char)) (frows : List (List (List Char)))
    (hn : splitFields headerLine = names)
    (hf : dataLines.map splitFields = frows)
    (hlen : ∀ fr ∈ frows, fr.length = names.length) :
    readCsvTable headerLine dataLines
      = some ⟨List.zipWith (fun n d => ⟨n, d⟩) names
            ((List.range names.length).map (fun j =>
              inferDType (frows.map (fun fr => fr.getD j [])))),
          frows.map (fun fr =>
            List.zipWith mkCell
              ((List.range names.length).map (fun j =>
                inferDType (frows.map (fun fr => fr.getD j [])))) fr)⟩ := by
  have hcond : frows.all (fun r => decide (r.length ≤ names.length)) = true :=
    List.all_eq_true.mpr (fun fr hfr => decide_eq_true (le_of_eq (hlen fr hfr)))
  have hpad : frows.map (fun r => r ++ List.replicate (names.length - r.length) []) = frows := by
    have hid : ∀ fr ∈ frows,
        fr ++ List.replicate (names.length - fr.length) [] = id fr := by
      intro fr hfr
      rw [hlen fr hfr]
      simp
    rw [List.map_congr_left hid, List.map_id]
  rw [readCsvTable.eq_def, hn, hf, if_pos hcond, hpad]

/-- C7 amended: the CSV round trip preserves values and column order for
every well-formed table inside the safety envelope `csvRoundSafe`: at
least one column, distinct plain non-empty column names, dtype-consistent
cells, numeric values with terminating decimal expansion (every binary
float has one — float formatting is the tolerance the claim grants), text
cells present, non-empty, free of separators/quotes/newlines, not NA/bool
sentinels, not case-insensitive inf/infinity/nan words, and not parseable
as numbers even after the converter's surrounding-whitespace stripping,
and no missing cell in a single-column table.  Outside the envelope the
trip can change values: see the counterexample (empty text cell comes
back missing). -/
theorem c7_roundtrip_amended (t : Table) (hs : csvRoundSafe t) :
    ∃ u, readCsv (writeCsv t) = some u ∧ tableValuesEq t u = true := by
  obtain ⟨hwf, hne0, hhs, hnodup, hcells, hone⟩ := hs
  have hnpos : 0 < t.headers.length := List.length_pos.mpr hne0
  have hrowlen : ∀ r ∈ t.rows, r.length = t.headers.length := by
    intro r hr
    simpa using List.all_eq_true.mp hwf r hr
  have hcell : ∀ r ∈ t.rows, ∀ j, j < t.headers.length →
      typedCell (t.headers.getD j ⟨[], .text⟩).dtype (r.getD j (.str none)) = true ∧
      csvSafeCell (r.getD j (.str none)) = true := by
    intro r hr j hj
    have hall := List.all_eq_true.mp hcells r hr
    have h2 := zipWith_all_getD (fun (h : Hdr) c => typedCell h.dtype c && csvSafeCell c)
      t.headers r ⟨[], .text⟩ (.str none) hall j hj (by rw [hrowlen r hr]; exact hj)
    rw [Bool.and_eq_true] at h2
    exact h2
  have hsafe_mem : ∀ r ∈ t.rows, ∀ c ∈ r, csvSafeCell c = true := by
    intro r hr c hc
    rcases List.mem_iff_getElem.mp hc with ⟨j, hjlt, rfl⟩
    have hj2 : j < t.headers.length := by rw [← hrowlen r hr]; exact hjlt
    have h2 := (hcell r hr j hj2).2
    rwa [List.getD_eq_getElem r _ hjlt] at h2
  have hhdr : ∀ h ∈ t.headers, h.name ≠ [] ∧ h.name.all plainChar = true := by
    intro h hh
    have h2 := List.all_eq_true.mp hhs h hh
    rw [hdrSafe, Bool.and_eq_true] at h2
    refine ⟨fun he => ?_, h2.2⟩
    rw [he] at h2
    simp at h2
  have hmapnames : t.headers.map (fun h => renderField h.name) = t.headers.map Hdr.name :=
    List.map_congr_left (fun h hh => renderField_eq_self (hhdr h hh).2)
  have hheadline_nolf : '\n' ∉ joinFields (t.headers.map Hdr.name) := by
    intro hmem
    rcases mem_joinFields hmem with h | ⟨f, hf, hcf⟩
    · exact absurd h (by decide)
    · rcases List.mem_map.mp hf with ⟨hd, hhd, rfl⟩
      exact (plainChar_cases (List.all_eq_true.mp (hhdr hd hhd).2 _ hcf)).2.2.1 rfl
  have hheadline_ne : joinFields (t.headers.map Hdr.name) ≠ [] := by
    cases hh : t.headers with
    | nil => exact absurd hh hne0
    | cons h0 hs0 =>
      rw [List.map_cons]
      refine joinFields_ne_nil (Or.inl ?_)
      exact (hhdr h0 (by rw [hh]; exact List.mem_cons_self _ _)).1
  have hrow_nolf : ∀ r ∈ t.rows, '\n' ∉ lineOfRow r := by
    intro r hr hmem
    rw [lineOfRow] at hmem
    rcases mem_joinFields hmem with h | ⟨f, hf, hcf⟩
    · exact absurd h (by decide)
    · rcases List.mem_map.mp hf with ⟨c, hc, rfl⟩
      exact (cellField_plain (hsafe_mem r hr c hc) _ hcf).2.2.1 rfl
  have hrow_ne : ∀ r ∈ t.rows, lineOfRow r ≠ [] := by
    intro r hr
    cases r with
    | nil =>
      have hlen := hrowlen [] hr
      simp at hlen
      omega
    | cons c rest =>
      rw [lineOfRow, List.map_cons]
      refine joinFields_ne_nil ?_
      cases hrest : rest with
      | cons g gs =>
        right
        simp
      | nil =>
        left
        have hlen := hrowlen (c :: rest) hr
        rw [hrest] at hlen
        simp at hlen
        have hpres := List.all_eq_true.mp (hone hlen.symm) (c :: rest) hr
        have hcpres := List.all_eq_true.mp hpres c (List.mem_cons_self _ _)
        have hcsafe := hsafe_mem (c :: rest) hr c (List.mem_cons_self _ _)
        cases c with
        | num v =>
          cases v with
          | none => simp [cellMissing] at hcpres
          | some q => exact qToChars_ne_nil q
        | str o =>
          cases o with
          | none => simp [cellMissing] at hcpres
          | some s =>
            have hst := safeText_parts (hcsafe : safeText s = true)
            rw [show cellField (Cell.str (some s)) = renderField s from rfl,
              renderField_eq_self hst.2.2.2]
            exact hst.1
  have hrec : splitRecords (writeCsv t)
      = joinFields (t.headers.map Hdr.name) :: t.rows.map lineOfRow := by
    rw [writeCsv, hmapnames]
    refine splitRecords_join _ ?_ ?_
    · intro l hl
      rcases List.mem_cons.mp hl with rfl | hl
      · exact hheadline_nolf
      · rcases List.mem_map.mp hl with ⟨r, hr, rfl⟩
        exact hrow_nolf r hr
    · intro l hl
      rcases List.mem_cons.mp hl with rfl | hl
      · exact hheadline_ne
      · rcases List.mem_map.mp hl with ⟨r, hr, rfl⟩
        exact hrow_ne r hr
  have hnamesfields : splitFields (joinFields (t.headers.map Hdr.name))
      = t.headers.map Hdr.name := by
    refine splitFields_joinFields (by simpa using hne0) ?_ ?_
    · intro f hf
      rcases List.mem_map.mp hf with ⟨h, hh, rfl⟩
      intro hmem
      exact (plainChar_cases (List.all_eq_true.mp (hhdr h hh).2 _ hmem)).1 rfl
    · intro f hf
      rcases List.mem_map.mp hf with ⟨h, hh, rfl⟩
      intro ch hch
      exact (plainChar_cases (List.all_eq_true.mp (hhdr h hh).2 ch hch)).2.1
  have hrowsfields : (t.rows.map lineOfRow).map splitFields
      = t.rows.map (fun r => r.map cellField) := by
    rw [List.map_map]
    refine List.map_congr_left (fun r hr => ?_)
    show splitFields (lineOfRow r) = r.map cellField
    rw [lineOfRow]
    refine splitFields_joinFields ?_ ?_ ?_
    · intro he
      have hrnil : r = [] := by simpa using he
      have hlen := hrowlen r hr
      rw [hrnil] at hlen
      simp at hlen
      omega
    · intro f hf
      rcases List.mem_map.mp hf with ⟨c, hc, rfl⟩
      intro hmem
      exact (cellField_plain (hsafe_mem r hr c hc) _ hmem).1 rfl
    · intro f hf
      rcases List.mem_map.mp hf with ⟨c, hc, rfl⟩
      intro ch hch
      exact (cellField_plain (hsafe_mem r hr c hc) ch hch).2.1
  have hfrlen : ∀ fr ∈ t.rows.map (fun r => r.map cellField),
      fr.length = (t.headers.map Hdr.name).length := by
    intro fr hfr
    rcases List.mem_map.mp hfr with ⟨r, hr, rfl⟩
    simp [hrowlen r hr]
  have hread : readCsv (writeCsv t)
      = readCsvTable (joinFields (t.headers.map Hdr.name)) (t.rows.map lineOfRow) := by
    rw [readCsv.eq_def, hrec]
  have heval := readCsvTable_eval (joinFields (t.headers.map Hdr.name))
    (t.rows.map lineOfRow) (t.headers.map Hdr.name) (t.rows.map (fun r => r.map cellField))
    hnamesfields hrowsfields hfrlen
  have hcolF : ∀ j, j < t.headers.length →
      (t.rows.map (fun r => r.map cellField)).map (fun fr => fr.getD j [])
        = t.rows.map (fun r => cellField (r.getD j (Cell.str none))) := by
    intro j hj
    rw [List.map_map]
    refine List.map_congr_left (fun r hr => ?_)
    show (r.map cellField).getD j [] = cellField (r.getD j (Cell.str none))
    exact getD_map_lt cellField r j (by rw [hrowlen r hr]; exact hj) [] (Cell.str none)
  have hinfer_num : ∀ j, j < t.headers.length →
      (t.headers.getD j ⟨[], .text⟩).dtype = .numeric →
      inferDType (t.rows.map (fun r => cellField (r.getD j (Cell.str none)))) = .numeric := by
    intro j hj hdt
    have hX : (t.rows.map (fun r => cellField (r.getD j (Cell.str none)))).all
        (fun f => decide (f ∈ naTokens) || (parseNumChars f).isSome) = true := by
      refine List.all_eq_true.mpr (fun f hf => ?_)
      rcases List.mem_map.mp hf with ⟨r, hr, rfl⟩
      have htyped := (hcell r hr j hj).1
      have hsafec := (hcell r hr j hj).2
      cases hcv : r.getD j (Cell.str none) with
      | str o =>
        rw [hcv, hdt] at htyped
        simp [typedCell] at htyped
      | num v =>
        rw [hcv] at hsafec
        cases v with
        | none =>
          rw [show cellField (Cell.num none) = [] from rfl, Bool.or_eq_true]
          exact Or.inl (by decide)
        | some q =>
          rw [show cellField (Cell.num (some q)) = qToChars q from rfl, Bool.or_eq_true]
          refine Or.inr ?_
          rw [parseNumChars_qToChars q hsafec]
          rfl
    rw [inferDType.eq_def, if_pos hX]
  have hforce_missing : ∀ j, j < t.headers.length →
      (t.headers.getD j ⟨[], .text⟩).dtype = .text →
      inferDType (t.rows.map (fun r => cellField (r.getD j (Cell.str none)))) = .numeric →
      ∀ r ∈ t.rows, r.getD j (Cell.str none) = .str none := by
    intro j hj hdt hinf r hr
    have htyped := (hcell r hr j hj).1
    have hsafec := (hcell r hr j hj).2
    cases hcv : r.getD j (Cell.str none) with
    | num v =>
      rw [hcv, hdt] at htyped
      simp [typedCell] at htyped
    | str o =>
      cases o with
      | none => rfl
      | some s =>
        exfalso
        rw [hcv] at hsafec
        obtain ⟨hsne, hsnone, hsnotna, hsplain⟩ := safeText_parts hsafec
        have hX : (t.rows.map (fun r => cellField (r.getD j (Cell.str none)))).all
            (fun f => decide (f ∈ naTokens) || (parseNumChars f).isSome) = true := by
          by_contra hXf
          rw [inferDType.eq_def, if_neg hXf] at hinf
          exact DType.noConfusion hinf
        have hfield : cellField (Cell.str (some s)) = s := by
          rw [show cellField (Cell.str (some s)) = renderField s from rfl,
            renderField_eq_self hsplain]
        have hmemf : s ∈ t.rows.map (fun r => cellField (r.getD j (Cell.str none))) :=
          List.mem_map.mpr ⟨r, hr, by rw [hcv, hfield]⟩
        have hor := List.all_eq_true.mp hX s hmemf
        rw [Bool.or_eq_true] at hor
        rcases hor with h | h
        · exact hsnotna (naTokens_subset_naLike (of_decide_eq_true h))
        · rw [hsnone] at h
          simp at h
  have hcellmatch : ∀ j, j < t.headers.length → ∀ r ∈ t.rows,
      cellValEq (r.getD j (Cell.str none))
        (mkCell (inferDType (t.rows.map (fun r' => cellField (r'.getD j (Cell.str none)))))
          (cellField (r.getD j (Cell.str none)))) = true := by
    intro j hj r hr
    have htyped := (hcell r hr j hj).1
    have hsafec := (hcell r hr j hj).2
    cases hdt : (t.headers.getD j ⟨[], .text⟩).dtype with
    | numeric =>
      rw [hinfer_num j hj hdt]
      cases hcv : r.getD j (Cell.str none) with
      | str o =>
        rw [hcv, hdt] at htyped
        simp [typedCell] at htyped
      | num v =>
        rw [hcv] at hsafec
        cases v with
        | none =>
          rw [show cellField (Cell.num none) = [] from rfl, mkCell_na (by decide)]
          decide
        | some q =>
          rw [show cellField (Cell.num (some q)) = qToChars q from rfl,
            mkCell_not_na (qToChars_not_na q)]
          show cellValEq (Cell.num (some q)) (Cell.num (parseNumChars (qToChars q))) = true
          rw [parseNumChars_qToChars q hsafec]
          simp [cellValEq]
    | text =>
      cases hinf : inferDType (t.rows.map (fun r' => cellField (r'.getD j (Cell.str none)))) with
      | numeric =>
        have hmiss := hforce_missing j hj hdt hinf r hr
        rw [hmiss, show cellField (Cell.str none) = [] from rfl, mkCell_na (by decide)]
        decide
      | text =>
        cases hcv : r.getD j (Cell.str none) with
        | num v =>
          rw [hcv, hdt] at htyped
          simp [typedCell] at htyped
        | str o =>
          rw [hcv] at hsafec
          cases o with
          | none =>
            rw [show cellField (Cell.str none) = [] from rfl, mkCell_na (by decide)]
            decide
          | some s =>
            obtain ⟨hsne, hsnone, hsnotna, hsplain⟩ := safeText_parts hsafec
            have hfield : cellField (Cell.str (some s)) = s := by
              rw [show cellField (Cell.str (some s)) = renderField s from rfl,
                renderField_eq_self hsplain]
            rw [hfield, mkCell_not_na (fun hna => hsnotna (naTokens_subset_naLike hna))]
            simp [cellValEq]
  refine ⟨_, hread.trans heval, ?_⟩
  generalize hDTS : (List.range (t.headers.map Hdr.name).length).map (fun j =>
      inferDType ((t.rows.map (fun r => r.map cellField)).map (fun fr => fr.getD j []))) = DTS
  have hlenD : DTS.length = t.headers.length := by
    rw [← hDTS]
    simp
  have hgetD : ∀ j, j < t.headers.length →
      DTS.getD j .text
        = inferDType (t.rows.map (fun r => cellField (r.getD j (Cell.str none)))) := by
    intro j hj
    rw [← hDTS,
      getD_map_lt (fun j => inferDType ((t.rows.map (fun r => r.map cellField)).map
          (fun fr => fr.getD j []))) (List.range (t.headers.map Hdr.name).length) j
        (by simpa using hj) .text 0,
      getD_range_lt (t.headers.map Hdr.name).length j (by simpa using hj) 0, hcolF j hj]
  rw [tableValuesEq]
  show (((t.headers.map Hdr.name
        == (List.zipWith (fun n d => Hdr.mk n d) (t.headers.map Hdr.name) DTS).map Hdr.name)
      && (t.rows.length
            == ((t.rows.map (fun r => r.map cellField)).map
                (fun fr => List.zipWith mkCell DTS fr)).length))
      && (List.zipWith rowValEq t.rows
            ((t.rows.map (fun r => r.map cellField)).map
              (fun fr => List.zipWith mkCell DTS fr))).all id) = true
  rw [Bool.and_eq_true, Bool.and_eq_true]
  refine ⟨⟨?_, ?_⟩, ?_⟩
  · rw [map_name_zipWith_mk _ _ (le_of_eq (by rw [hlenD]; simp))]
    exact beq_self_eq_true _
  · simp
  · rw [List.map_map]
    refine zipWith_map_self_all _ _ _ (fun r hr => ?_)
    show rowValEq r (List.zipWith mkCell DTS (r.map cellField)) = true
    rw [rowValEq, Bool.and_eq_true]
    refine ⟨?_, ?_⟩
    · rw [List.length_zipWith, hlenD, List.length_map, hrowlen r hr]
      simp
    · refine all_zipWith_of_getD _ _ _ (Cell.str none) (Cell.str none) (fun j hj1 hj2 => ?_)
      have hj : j < t.headers.length := by rw [← hrowlen r hr]; exact hj1
      rw [zipWith_getD mkCell _ _ j (by rw [hlenD]; exact hj)
          (by rw [List.length_map]; exact hj1) (Cell.str none) .text []]
      rw [hgetD j hj, getD_map_lt cellField r j hj1 [] (Cell.str none)]
      exact hcellmatch j hj r hr

theorem c7_witness :
    csvRoundSafe wT7 ∧
    ∃ u, readCsv (writeCsv wT7) = some u ∧ tableValuesEq wT7 u = true :=
  ⟨by with_unfolding_all decide, c7_roundtrip_amended wT7 (by with_unfolding_all decide)⟩

/-! ## Convert & Export naming -/

/-- C8 counterexample: for the upload `a.csv.csv` (whose `splitext` base
name is `a.csv`), converting to Excel names the download `a.xlsx.xlsx`
— `str.replace` substitutes every occurrence of the extension substring —
not `<original-base-name>.xlsx = a.csv.xlsx` as the claim states. -/
theorem c8_name_counterexample :
    fileExtOf "a.csv.csv".toList = ".csv".toList ∧
    downloadName "a.csv.csv".toList .excel = "a.xlsx.xlsx".toList ∧
    downloadName "a.csv.csv".toList .excel ≠ "a.csv".toList ++ ".xlsx".toList :=
  ⟨by decide, by decide, by decide⟩

theorem leadsWith_append_self (pat t : List Char) : leadsWith pat (pat ++ t) = true := by
  induction pat with
  | nil => rfl
  | cons p ps ih => simp [leadsWith, ih]

theorem replaceAllAux_append_pat {fuel : ℕ} {base pat rep : List Char}
    (hne : pat ≠ [])
    (hfuel : (base ++ pat).length < fuel)
    (honly : ∀ i, i < base.length → leadsWith pat ((base ++ pat).drop i) = false) :
    replaceAllAux fuel (base ++ pat) pat rep = base ++ rep := by
  induction base generalizing fuel with
  | nil =>
    cases fuel with
    | zero => omega
    | succ f =>
      cases pat with
      | nil => exact absurd rfl hne
      | cons p ps =>
        simp only [List.nil_append, replaceAllAux]
        rw [if_neg (by simp), if_pos (by simpa using leadsWith_append_self (p :: ps) [])]
        rw [List.drop_length]
        cases f with
        | zero => simp [replaceAllAux]
        | succ f => simp [replaceAllAux]
  | cons b base ih =>
    cases fuel with
    | zero =>
      simp at hfuel
    | succ f =>
      have hstep : leadsWith pat (b :: (base ++ pat)) = false := by
        have := honly 0 (by simp)
        simpa using this
      simp only [List.cons_append, replaceAllAux]
      rw [if_neg (by simpa using hne), if_neg (by simp [hstep])]
      refine congrArg (b :: ·) (ih ?_ ?_)
      · simp only [List.cons_append, List.length_cons] at hfuel
        omega
      · intro i hi
        have := honly (i + 1) (by simpa using Nat.succ_lt_succ hi)
        simpa [List.drop_succ_cons] using this

theorem replaceAll_append_pat {base pat rep : List Char} (hne : pat ≠ [])
    (honly : ∀ i, i < base.length → leadsWith pat ((base ++ pat).drop i) = false) :
    replaceAll (base ++ pat) pat rep = base ++ rep :=
  replaceAllAux_append_pat hne (Nat.lt_succ_self _) honly

/-- C8 amended: when the uploaded name is `base ++ ext` with `ext` equal
to its own lowercased `splitext` extension and `ext` occurring nowhere
else in the name, the download is named exactly `base` plus the new
extension; the MIME type is `text/csv` for csv and the Office Open XML
spreadsheet type for xlsx.  (In general the handler replaces *every*
occurrence of the lowercased extension substring, see the
counterexample.) -/
theorem c8_convert_name_amended (base ext : List Char) (fmt : Format)
    (hne : ext ≠ [])
    (hext : toLowerChars (fileExtOf (base ++ ext)) = ext)
    (honly : noEarlyOccur base (base ++ ext) ext = true) :
    downloadName (base ++ ext) fmt = base ++ targetExtOf fmt ∧
    mimeOf .csv = "text/csv" ∧
    mimeOf .excel = "application/vnd.openxmlformats-officedocument.spreadsheetml.sheet" := by
  refine ⟨?_, rfl, rfl⟩
  rw [downloadName, hext]
  refine replaceAll_append_pat hne (fun i hi => ?_)
  have := List.all_eq_true.mp honly i (List.mem_range.mpr hi)
  simpa using this

theorem c8_witness :
    ".xlsx".toList ≠ ([] : List Char) ∧
    toLowerChars (fileExtOf ("data".toList ++ ".xlsx".toList)) = ".xlsx".toList ∧
    noEarlyOccur "data".toList ("data".toList ++ ".xlsx".toList) ".xlsx".toList = true ∧
    downloadName ("data".toList ++ ".xlsx".toList) .csv = "data".toList ++ targetExtOf .csv :=
  ⟨by decide, by decide, by decide,
    (c8_convert_name_amended "data".toList ".xlsx".toList .csv (by decide) (by decide)
      (by decide)).1⟩

/-- C9: Convert & Export is a pure, non-mutating read of the current
table: the handler leaves the table unchanged, and running it again over
the state the first run left behind produces a byte-identical payload. -/
theorem c9_convert_pure_read (t : Table) (n : List Char) (f g : Format) :
    (convertStep t n f).2 = t ∧
    (convertStep (convertStep t n f).2 n g).1 = (convertStep t n g).1 :=
  ⟨rfl, rfl⟩

end Sweeper
